import Mathlib

/-!
Shallow embedding of the text-fitting and pagination engine of the
worship_slides repository (src/slide_builder.py and
src/verse_slide_builder.py), together with proofs about its wrapping,
packing, rebalancing and clause-splitting passes.

Python strings are modelled as lists of characters (`Str`).  The Pillow
text-measuring capability is abstracted as a function `Str → ℚ`; pixel
and point quantities are rationals, so that the source's left-to-right
float arithmetic is mirrored exactly on the concrete inputs used below.
A display line under construction in `_wrap_one_lyric_line_by_width` is
kept as its list of words (the source keeps the joined string and splits
it again with `cur.split(" ")`; since the words come from `str.split()`
they contain no whitespace, so the two representations correspond
exactly through `joinWords`).
-/

/-- Python strings are modelled as lists of characters. -/
abbrev Str := List Char

/-- ASCII whitespace, as recognised by Python's str.split() / str.strip(). -/
def isSpace (c : Char) : Bool :=
  decide (c = ' ' ∨ c = '\t' ∨ c = '\n' ∨ c = '\r' ∨ c = '\x0b' ∨ c = '\x0c')

/-- Helper of `pyWords`: `cur` is the word currently being accumulated, in
reverse order. -/
def pyWordsAux (cur : Str) : Str → List Str
  | [] => if cur = [] then [] else [cur.reverse]
  | c :: cs =>
    if isSpace c then
      if cur = [] then pyWordsAux [] cs else cur.reverse :: pyWordsAux [] cs
    else pyWordsAux (c :: cur) cs

/-- Python `s.split()` with no arguments: split on whitespace runs, dropping
empty strings. -/
def pyWords (s : Str) : List Str := pyWordsAux [] s

/-- Python `s.lstrip()`. -/
def pyLStrip (s : Str) : Str := s.dropWhile fun c => isSpace c

/-- Python `s.rstrip()`. -/
def pyRStrip (s : Str) : Str := (s.reverse.dropWhile fun c => isSpace c).reverse

/-- Python `s.strip()`. -/
def pyStrip (s : Str) : Str := pyRStrip (pyLStrip s)

/-- Python `" ".join(ws)`. -/
def joinWords (ws : List Str) : Str := List.intercalate [' '] ws

/-- Python `" ".join(s.split())`, the whitespace normalisation used throughout
verse_slide_builder.py. -/
def pyNormalize (s : Str) : Str := joinWords (pyWords s)

/-- Python `s.lower()` (ASCII). -/
def pyLower (s : Str) : Str := s.map Char.toLower

/-- The `_SMALL_WORDS` set of slide_builder.py (lines 250-253). -/
def SMALL_WORDS : List Str :=
  (["and", "or", "but", "the", "a", "an", "of", "to", "in", "on", "at", "for",
    "by", "with", "that", "this", "is", "be", "as", "if", "so", "yet", "nor",
    "from"]).map String.toList

/-- Inner while-loop of `_wrap_one_lyric_line_by_width` (lines 287-298):
extend the current display line `cur` (kept as its list of words) while the
candidate made by appending the next word still measures within `maxW`.
Returns the finished line and the unconsumed words. -/
def greedyExtend (μ : Str → ℚ) (maxW : ℚ) : List Str → List Str → List Str × List Str
  | cur, [] => (cur, [])
  | cur, w :: ws =>
    if μ (joinWords (cur ++ [w])) ≤ maxW then greedyExtend μ maxW (cur ++ [w]) ws
    else (cur, w :: ws)

/-- Weak-ending pass of `_wrap_one_lyric_line_by_width` (lines 300-305): if
the finished line has at least two words, ends in a small connector word, and
more words follow, push the connector back onto the remaining word stream. -/
def weakEnding (cur rest : List Str) : List Str × List Str :=
  if 2 ≤ cur.length ∧ pyLower (cur.getLastD []) ∈ SMALL_WORDS ∧ rest ≠ [] then
    (cur.dropLast, cur.getLastD [] :: rest)
  else (cur, rest)

theorem greedyExtend_append (μ : Str → ℚ) (maxW : ℚ) :
    ∀ (rest cur : List Str),
      (greedyExtend μ maxW cur rest).1 ++ (greedyExtend μ maxW cur rest).2 = cur ++ rest
  | [], cur => by simp [greedyExtend]
  | w :: ws, cur => by
    by_cases h : μ (joinWords (cur ++ [w])) ≤ maxW
    · simp only [greedyExtend, if_pos h]
      rw [greedyExtend_append μ maxW ws (cur ++ [w])]
      simp
    · simp [greedyExtend, h]

theorem greedyExtend_fst_length (μ : Str → ℚ) (maxW : ℚ) :
    ∀ (rest cur : List Str), cur.length ≤ (greedyExtend μ maxW cur rest).1.length
  | [], cur => by simp [greedyExtend]
  | w :: ws, cur => by
    by_cases h : μ (joinWords (cur ++ [w])) ≤ maxW
    · simp only [greedyExtend, if_pos h]
      have := greedyExtend_fst_length μ maxW ws (cur ++ [w])
      simp at this
      omega
    · simp [greedyExtend, h]

/-- The word stream left for the next outer-loop iteration is strictly
shorter than the stream the current iteration started from. -/
theorem wrapStep_rest_lt (μ : Str → ℚ) (maxW : ℚ) (w : Str) (ws : List Str) :
    (weakEnding (greedyExtend μ maxW [w] ws).1 (greedyExtend μ maxW [w] ws).2).2.length
      < ws.length + 1 := by
  have hap := greedyExtend_append μ maxW ws [w]
  have hlen : (greedyExtend μ maxW [w] ws).1.length + (greedyExtend μ maxW [w] ws).2.length
      = ws.length + 1 := by
    have := congrArg List.length hap
    simp at this
    omega
  have hone : 1 ≤ (greedyExtend μ maxW [w] ws).1.length := by
    simpa using greedyExtend_fst_length μ maxW ws [w]
  unfold weakEnding
  by_cases hc : 2 ≤ (greedyExtend μ maxW [w] ws).1.length ∧
      pyLower ((greedyExtend μ maxW [w] ws).1.getLastD []) ∈ SMALL_WORDS ∧
      (greedyExtend μ maxW [w] ws).2 ≠ []
  · simp only [if_pos hc]
    simp only [List.length_cons]
    omega
  · simp only [if_neg hc]
    omega

/-- Outer while-loop of `_wrap_one_lyric_line_by_width` (lines 283-308); each
display line is represented by its list of words. -/
def wrapWords (μ : Str → ℚ) (maxW : ℚ) (words : List Str) : List (List Str) :=
  match words with
  | [] => []
  | w :: ws =>
    (weakEnding (greedyExtend μ maxW [w] ws).1 (greedyExtend μ maxW [w] ws).2).1 ::
      wrapWords μ maxW
        (weakEnding (greedyExtend μ maxW [w] ws).1 (greedyExtend μ maxW [w] ws).2).2
termination_by words.length
decreasing_by simpa using wrapStep_rest_lt μ maxW w ws

/-- Anti-orphan pass of `_wrap_one_lyric_line_by_width` (lines 310-321),
operating on the joined display lines as in the source. -/
def antiOrphan (μ : Str → ℚ) (maxW : ℚ) (out : List Str) : List Str :=
  match out.reverse with
  | lastL :: prevL :: restRev =>
    if (pyWords lastL).length = 1 ∧ 3 ≤ (pyWords prevL).length then
      let moved := (pyWords prevL).getLastD []
      let newPrev := joinWords (pyWords prevL).dropLast
      let newLast := moved ++ ' ' :: lastL
      if μ newLast ≤ maxW ∧ μ newPrev ≤ maxW then restRev.reverse ++ [newPrev, newLast]
      else out
    else out
  | _ => out

/-- `_wrap_one_lyric_line_by_width` (slide_builder.py lines 265-322) with the
Pillow measuring function abstracted as `μ`.  The debug path is disabled, so
the width safety factor is the literal 0.97 of line 272. -/
def wrap_one_lyric_line_by_width (μ : Str → ℚ) (line : Str) (maxWidthPx : ℚ) : List Str :=
  let stripped := pyStrip line
  if stripped = [] then []
  else
    antiOrphan μ (maxWidthPx * (97 / 100))
      ((wrapWords μ (maxWidthPx * (97 / 100)) (pyWords stripped)).map joinWords)

/-- A packed slide: display lines and the parallel lyric-start flags. -/
abbrev Page := List Str × List Bool

/-- Chunking loop of the hard-split fallback (lines 373-378). -/
def chunkList {α : Type} (n : Nat) (l : List α) : List (List α) :=
  match l with
  | [] => []
  | x :: xs =>
    if _hn : n = 0 then [x :: xs]
    else (x :: xs).take n :: chunkList n ((x :: xs).drop n)
termination_by l.length
decreasing_by
  simp only [List.length_drop, List.length_cons]
  omega

/-- State of the packing loop of `_pack_lyrics_into_slides_by_height`:
committed slides, the current slide's lines and flags, and its used height. -/
structure PackState where
  slides : List Page
  curLines : List Str
  curFlags : List Bool
  usedH : ℚ

/-- One iteration of the for-loop of `_pack_lyrics_into_slides_by_height`
(lines 350-386).  `budget` is `box_height_px * 0.98` and `gap` is
`max 0 (line_height_px * lyric_gap_em)`, precomputed as in the source
(debug disabled, so the height safety factor is the literal 0.98). -/
def packStep (μ : Str → ℚ) (boxW lineH gap budget : ℚ) (st : PackState) (lyric : Str) :
    PackState :=
  let wrapped := wrap_one_lyric_line_by_width μ lyric boxW
  if wrapped = [] then st
  else
    let addGap := if st.curLines ≠ [] then gap else 0
    let neededH := addGap + wrapped.length * lineH
    if st.curLines ≠ [] ∧ budget < st.usedH + neededH then
      if budget < (wrapped.length : ℚ) * lineH then
        let maxLines := max 1 (Int.toNat ⌊budget / max lineH 1⌋)
        ⟨st.slides ++ [(st.curLines, st.curFlags)] ++
            (chunkList maxLines wrapped).map
              (fun c => (c, true :: List.replicate (c.length - 1) false)),
          [], [], 0⟩
      else
        ⟨st.slides ++ [(st.curLines, st.curFlags)], wrapped,
          true :: List.replicate (wrapped.length - 1) false,
          (wrapped.length : ℚ) * lineH⟩
    else if st.curLines = [] ∧ budget < neededH then
      let maxLines := max 1 (Int.toNat ⌊budget / max lineH 1⌋)
      ⟨st.slides ++ (chunkList maxLines wrapped).map
          (fun c => (c, true :: List.replicate (c.length - 1) false)),
        [], [], 0⟩
    else
      ⟨st.slides, st.curLines ++ wrapped,
        st.curFlags ++ true :: List.replicate (wrapped.length - 1) false,
        st.usedH + neededH⟩

/-- `_pack_lyrics_into_slides_by_height` (slide_builder.py lines 325-391),
debug disabled. -/
def pack_lyrics_into_slides_by_height (μ : Str → ℚ) (lyricLines : List Str)
    (boxW boxH lineH gapEm : ℚ) : List Page :=
  let st := lyricLines.foldl
    (packStep μ boxW lineH (max 0 (lineH * gapEm)) (boxH * (98 / 100)))
    ⟨[], [], [], 0⟩
  st.slides ++ if st.curLines ≠ [] then [(st.curLines, st.curFlags)] else []

/-- Loop of `_split_into_lyric_groups` (lines 394-407): `curL` / `curF` are
the parallel accumulators `cur_l` / `cur_f` of the source. -/
def splitGroupsAux (curL : List Str) (curF : List Bool) :
    List (Str × Bool) → List (List Str × List Bool)
  | [] => if curL = [] then [] else [(curL, curF)]
  | (ln, fl) :: rest =>
    if fl ∧ curL ≠ [] then (curL, curF) :: splitGroupsAux [ln] [fl] rest
    else splitGroupsAux (curL ++ [ln]) (curF ++ [fl]) rest

/-- `_split_into_lyric_groups` (lines 394-407). -/
def split_into_lyric_groups (lines : List Str) (flags : List Bool) :
    List (List Str × List Bool) :=
  splitGroupsAux [] [] (lines.zip flags)

/-- `_join_lyric_groups` (lines 410-416). -/
def join_lyric_groups (groups : List (List Str × List Bool)) : Page :=
  (groups.flatMap Prod.fst, groups.flatMap Prod.snd)

/-- Body of the index loop of `_rebalance_single_lyric_slides` (lines
436-452): `prev` is the current value of `out[i-1]`; the final value of
`out[i-1]` is emitted and the updated `out[i]` becomes `prev` for the next
index. -/
def rebalanceLoop (minPer minLeft : Nat) : Page → List Page → List Page
  | prev, [] => [prev]
  | prev, cur :: rest =>
    if minPer ≤ (split_into_lyric_groups cur.1 cur.2).length ∨
        (split_into_lyric_groups prev.1 prev.2).length ≤ minLeft then
      prev :: rebalanceLoop minPer minLeft cur rest
    else
      join_lyric_groups (split_into_lyric_groups prev.1 prev.2).dropLast ::
        rebalanceLoop minPer minLeft
          (join_lyric_groups ((split_into_lyric_groups prev.1 prev.2).getLastD ([], []) ::
            split_into_lyric_groups cur.1 cur.2)) rest

/-- `_rebalance_single_lyric_slides` (slide_builder.py lines 419-457). -/
def rebalance_single_lyric_slides (packed : List Page) (minPer minLeft : Nat) :
    List Page :=
  match packed with
  | [] => []
  | [p] => [p]
  | p :: rest => rebalanceLoop minPer minLeft p rest

/-- Derived used height of a packed slide: line count times line height plus
one inter-unit gap for every unit start after the first. -/
def usedHeight (lineH gap : ℚ) (pg : Page) : ℚ :=
  lineH * (pg.1.length : ℚ) + gap * ((pg.2.count true - 1 : Nat) : ℚ)

/-- Well-formedness of a packed slide: non-empty, parallel flag list of the
same length, first flag true. -/
def PageWF (pg : Page) : Prop :=
  pg.1 ≠ [] ∧ pg.1.length = pg.2.length ∧ pg.2.head? = some true

/-- All words on all pages, in order. -/
def pagesWords (pages : List Page) : List Str :=
  pages.flatMap fun pg => pg.1.flatMap pyWords

/-- A concrete measuring function for witnesses: the width of a string is its
character count. -/
def lenQ (s : Str) : ℚ := s.length

/-- The `_WORD_JOINER` placeholder of verse_slide_builder.py (line 63): not
whitespace, so wrapping never breaks at it. -/
def WORD_JOINER : Char := '⁠'

/-- Replacement applied to the inside of a matched bracket span
(verse_slide_builder.py lines 188-191): normalise internal whitespace, then
turn the spaces into `WORD_JOINER`. -/
def protectInner (inner : Str) : Str :=
  pyNormalize inner |>.map fun c => if c = ' ' then WORD_JOINER else c

/-- Lazy match of `(.+?)\]` for the regex `\[(.+?)\]`: the index (in the text
after the opening bracket) of the first closing bracket that leaves a
non-empty newline-free inner span, if any. -/
def findCloseAux : Str → Nat → Option Nat
  | [], _ => none
  | c :: cs, i =>
    if c = ']' ∧ 1 ≤ i then some i
    else if c = '\n' then none
    else findCloseAux cs (i + 1)

/-- Leftmost non-overlapping scan of `_BRACKET_SPAN_RE.sub` in
`protect_bracket_spans`. -/
def protectScan (s : Str) : Str :=
  match s with
  | [] => []
  | c :: cs =>
    if c = '[' then
      match findCloseAux cs 0 with
      | some j => '[' :: (protectInner (cs.take j) ++ ']' :: protectScan (cs.drop (j + 1)))
      | none => c :: protectScan cs
    else c :: protectScan cs
termination_by s.length
decreasing_by
  · simp only [List.length_drop, List.length_cons]
    omega
  · simp
  · simp

/-- `protect_bracket_spans` (verse_slide_builder.py lines 183-192). -/
def protect_bracket_spans (text : Str) : Str := protectScan text

/-- `restore_bracket_spaces` (verse_slide_builder.py lines 195-196). -/
def restore_bracket_spaces (text : Str) : Str :=
  text.map fun c => if c = WORD_JOINER then ' ' else c

/-- Helper of `splitOnChar`: Python `s.split(sep)` for a single separator
character, keeping empty pieces. -/
def splitOnCharAux (sep : Char) (cur : Str) : Str → List Str
  | [] => [cur.reverse]
  | c :: cs =>
    if c = sep then cur.reverse :: splitOnCharAux sep [] cs
    else splitOnCharAux sep (c :: cur) cs

/-- Python `s.split(sep)` for a one-character separator. -/
def splitOnChar (sep : Char) (s : Str) : List Str := splitOnCharAux sep [] s

/-- Loop body of `wrap_text_to_lines` (verse_slide_builder.py lines 207-216):
the state is the committed lines together with the line being built. -/
def wtlStep (maxLineChars : Nat) (st : List Str × Str) (w : Str) : List Str × Str :=
  if w = [] then st
  else
    let cand := if st.2 ≠ [] then pyStrip (st.2 ++ ' ' :: w) else w
    if cand.length ≤ maxLineChars then (st.1, cand)
    else ((if st.2 ≠ [] then st.1 ++ [st.2] else st.1), w)

/-- `wrap_text_to_lines` (verse_slide_builder.py lines 199-219) as the list of
display lines; the source joins them with newline characters. -/
def wrapTextLines (text : Str) (maxLineChars : Nat) : List Str :=
  let t := pyNormalize text
  if t = [] then []
  else
    let st := (splitOnChar ' ' t).foldl (wtlStep maxLineChars) ([], [])
    if st.2 ≠ [] then st.1 ++ [st.2] else st.1

/-- `wrap_text_to_lines` (lines 199-219), joined output string. -/
def wrap_text_to_lines (text : Str) (maxLineChars : Nat) : Str :=
  List.intercalate ['\n'] (wrapTextLines text maxLineChars)

/-- Clause-boundary test of the regex on line 255 of split_by_lines: sentence
or clause punctuation followed by whitespace or end of string, or a comma
followed by whitespace. -/
def clauseBoundary (c : Char) (rest : Str) : Bool :=
  (decide (c = '.' ∨ c = '!' ∨ c = '?' ∨ c = ';' ∨ c = ':') &&
      (rest.isEmpty || rest.head?.any isSpace)) ||
    (decide (c = ',') && rest.head?.any isSpace)

/-- Scanner for the `re.finditer` loop of split_by_lines (lines 252-263):
`cur` holds the characters of the current clause in reverse; each unit is
stripped and dropped when empty, exactly as in the source. -/
def clauseScan (cur : Str) : Str → List Str
  | [] =>
    if pyStrip cur.reverse = [] then [] else [pyStrip cur.reverse]
  | c :: cs =>
    if clauseBoundary c cs then
      (if pyStrip (c :: cur).reverse = [] then [] else [pyStrip (c :: cur).reverse]) ++
        clauseScan [] cs
    else clauseScan (c :: cur) cs

/-- Condition of lines 272-274 of split_by_lines: the trailing clause has at
most two words, or at most eight characters once everything but ASCII letters
and digits is removed. -/
def tinyTailCond (last : Str) : Bool :=
  ((pyWords last).length ≤ 2) ||
    ((pyLower (last.filter fun c =>
        decide (('A' ≤ c ∧ c ≤ 'Z') ∨ ('a' ≤ c ∧ c ≤ 'z') ∨ ('0' ≤ c ∧ c ≤ '9')))).length ≤ 8)

/-- Short-trailing-unit merge of split_by_lines (lines 268-276). -/
def mergeTinyTail (units : List Str) : List Str :=
  if 2 ≤ units.length then
    let lst := pyStrip (units.getLastD [])
    if tinyTailCond lst then
      units.dropLast.dropLast ++
        [pyStrip (pyRStrip (units.dropLast.getLastD []) ++ ' ' :: lst)]
    else units
  else units

/-- Clause-unit phase of `split_by_lines` (verse_slide_builder.py lines
237-276): whitespace normalisation and empty-input guard, punctuation-bounded
clause units, the no-boundary fallback, and the short-trailing-unit merge.
The later packing and repair passes of split_by_lines consume these units. -/
def split_by_lines_units (text : Str) : List Str :=
  let t := pyNormalize text
  if t = [] then []
  else
    let units := clauseScan [] t
    mergeTinyTail (if units = [] then [t] else units)

/-- Substring relation on the character-list model of Python strings. -/
def isSub (p s : Str) : Prop := ∃ u v, s = u ++ p ++ v

/-- A string with no whitespace characters. -/
def SpaceFree (w : Str) : Prop := ∀ c ∈ w, isSpace c = false

/-- A concrete measuring function for witnesses and counterexamples: 100
pixels per character of the rendered string. -/
def mu100 (s : Str) : ℚ := 100 * s.length

/-- A concrete lyric-line list exercising the packer and the rebalancer. -/
def fourLyrics : List Str :=
  [['a'], ['b'], ['c', 'c', ' ', 'd', 'd'], ['e', 'e', ' ', 'f', 'f', ' ', 'g', 'g']]

/-- The scripture text of the clause-splitter scenario. -/
def john316 : Str :=
  "For God so loved the world, that he gave his only begotten Son: Amen.".toList

theorem joinWords_nil : joinWords ([] : List Str) = [] := by
  simp [joinWords, List.intercalate]

theorem joinWords_single (w : Str) : joinWords [w] = w := by
  simp [joinWords, List.intercalate]

theorem joinWords_cons (w : Str) (ws : List Str) (h : ws ≠ []) :
    joinWords (w :: ws) = w ++ ' ' :: joinWords ws := by
  obtain ⟨y, ys, rfl⟩ := List.exists_cons_of_ne_nil h
  simp [joinWords, List.intercalate]

theorem pyWordsAux_append_space {c : Char} (hc : isSpace c = true) :
    ∀ (xs cur ys : Str),
      pyWordsAux cur (xs ++ c :: ys) = pyWordsAux cur xs ++ pyWordsAux [] ys
  | [], cur, ys => by
    by_cases h : cur = [] <;> simp [pyWordsAux, hc, h]
  | x :: xs, cur, ys => by
    by_cases hx : isSpace x = true
    · by_cases h : cur = [] <;>
        simp [pyWordsAux, hx, h, pyWordsAux_append_space hc xs [] ys]
    · have hx' : isSpace x = false := by simpa using hx
      simp [pyWordsAux, hx', pyWordsAux_append_space hc xs (x :: cur) ys]

theorem pyWordsAux_no_space :
    ∀ (w cur : Str), (∀ c ∈ w, isSpace c = false) →
      pyWordsAux cur w = if cur.reverse ++ w = [] then [] else [cur.reverse ++ w]
  | [], cur, _ => by
    by_cases h : cur = [] <;> simp [pyWordsAux, h]
  | c :: cs, cur, h => by
    have hc : isSpace c = false := h c (by simp)
    have ih := pyWordsAux_no_space cs (c :: cur) (fun d hd => h d (by simp [hd]))
    simp only [pyWordsAux, hc, Bool.false_eq_true, if_false]
    rw [ih]
    simp

theorem pyWords_word {w : Str} (hne : w ≠ []) (hf : SpaceFree w) :
    pyWords w = [w] := by
  unfold pyWords
  rw [pyWordsAux_no_space w [] hf]
  simp [hne]

theorem pyWordsAux_words :
    ∀ (s cur : Str), SpaceFree cur →
      ∀ w ∈ pyWordsAux cur s, w ≠ [] ∧ SpaceFree w
  | [], cur, hcur => by
    by_cases h : cur = []
    · simp [pyWordsAux, h]
    · intro w hw
      simp only [pyWordsAux, if_neg h, List.mem_singleton] at hw
      subst hw
      exact ⟨by simpa using h, fun c hc => hcur c (by simpa using hc)⟩
  | c :: cs, cur, hcur => by
    intro w hw
    by_cases hc : isSpace c = true
    · by_cases h : cur = []
      · simp only [pyWordsAux, hc, if_true, if_pos h] at hw
        exact pyWordsAux_words cs [] (by simp [SpaceFree]) w hw
      · simp only [pyWordsAux, hc, if_true, if_neg h, List.mem_cons] at hw
        rcases hw with rfl | hw
        · exact ⟨by simpa using h, fun d hd => hcur d (by simpa using hd)⟩
        · exact pyWordsAux_words cs [] (by simp [SpaceFree]) w hw
    · have hc' : isSpace c = false := by simpa using hc
      simp only [pyWordsAux, hc', Bool.false_eq_true, if_false] at hw
      refine pyWordsAux_words cs (c :: cur) ?_ w hw
      intro d hd
      rcases List.mem_cons.mp hd with rfl | hd
      · exact hc'
      · exact hcur d hd

theorem pyWords_words {s : Str} : ∀ w ∈ pyWords s, w ≠ [] ∧ SpaceFree w :=
  pyWordsAux_words s [] (by simp [SpaceFree])

theorem pyWords_joinWords :
    ∀ (ws : List Str), (∀ w ∈ ws, w ≠ [] ∧ SpaceFree w) →
      pyWords (joinWords ws) = ws
  | [], _ => by simp [joinWords_nil, pyWords, pyWordsAux]
  | [w], h => by
    rw [joinWords_single]
    exact pyWords_word (h w (by simp)).1 (h w (by simp)).2
  | w :: x :: ws, h => by
    rw [joinWords_cons w (x :: ws) (by simp)]
    unfold pyWords
    rw [pyWordsAux_append_space (c := ' ') (by decide) w [] (joinWords (x :: ws))]
    rw [pyWordsAux_no_space w [] (h w (by simp)).2]
    have := pyWords_joinWords (x :: ws) (fun u hu => h u (by simp [hu]))
    unfold pyWords at this
    rw [this]
    simp [(h w (by simp)).1]

theorem pyWordsAux_all_space :
    ∀ (s : Str), (∀ c ∈ s, isSpace c = true) → pyWordsAux [] s = []
  | [], _ => rfl
  | c :: cs, h => by
    simp [pyWordsAux, h c (by simp),
      pyWordsAux_all_space cs (fun d hd => h d (by simp [hd]))]

theorem pyWordsAux_append_all_space :
    ∀ (t : Str), (∀ c ∈ t, isSpace c = true) →
      ∀ (s cur : Str), pyWordsAux cur (s ++ t) = pyWordsAux cur s
  | [], _, s, cur => by simp
  | c :: t, h, s, cur => by
    rw [pyWordsAux_append_space (h c (by simp)) s cur t]
    rw [pyWordsAux_all_space t (fun d hd => h d (by simp [hd]))]
    simp

theorem pyWords_lstrip : ∀ (s : Str), pyWords (pyLStrip s) = pyWords s
  | [] => rfl
  | c :: cs => by
    by_cases hc : isSpace c = true
    · have : pyLStrip (c :: cs) = pyLStrip cs := by simp [pyLStrip, hc]
      rw [this, pyWords_lstrip cs]
      simp [pyWords, pyWordsAux, hc]
    · have hc' : isSpace c = false := by simpa using hc
      simp [pyLStrip, hc']

theorem pyWords_rstrip (s : Str) : pyWords (pyRStrip s) = pyWords s := by
  have h1 : s.reverse.takeWhile (fun c => isSpace c) ++
      s.reverse.dropWhile (fun c => isSpace c) = s.reverse :=
    List.takeWhile_append_dropWhile (fun c => isSpace c) s.reverse
  have hdecomp : s = pyRStrip s ++ (s.reverse.takeWhile (fun c => isSpace c)).reverse := by
    have h2 := congrArg List.reverse h1
    simp only [List.reverse_append, List.reverse_reverse] at h2
    rw [pyRStrip]
    exact h2.symm
  conv_rhs => rw [hdecomp]
  unfold pyWords
  rw [pyWordsAux_append_all_space _ ?_ (pyRStrip s) []]
  intro c hc
  rw [List.mem_reverse] at hc
  exact List.mem_takeWhile_imp hc

theorem pyWords_strip (s : Str) : pyWords (pyStrip s) = pyWords s := by
  rw [pyStrip, pyWords_rstrip, pyWords_lstrip]

theorem pyWordsAux_ne_nil :
    ∀ (s cur : Str), cur ≠ [] → pyWordsAux cur s ≠ []
  | [], cur, h => by simp [pyWordsAux, h]
  | c :: cs, cur, h => by
    by_cases hc : isSpace c = true
    · simp [pyWordsAux, hc, h]
    · have hc' : isSpace c = false := by simpa using hc
      simp only [pyWordsAux, hc', Bool.false_eq_true, if_false]
      exact pyWordsAux_ne_nil cs (c :: cur) (by simp)

theorem all_space_of_pyWords_nil :
    ∀ (s : Str), pyWords s = [] → ∀ c ∈ s, isSpace c = true
  | c :: cs, h, d, hd => by
    by_cases hc : isSpace c = true
    · have hcs : pyWords cs = [] := by
        simpa [pyWords, pyWordsAux, hc] using h
      rcases List.mem_cons.mp hd with rfl | hd
      · exact hc
      · exact all_space_of_pyWords_nil cs hcs d hd
    · have hc' : isSpace c = false := by simpa using hc
      exfalso
      have : pyWordsAux [c] cs ≠ [] := pyWordsAux_ne_nil cs [c] (by simp)
      exact this (by simpa [pyWords, pyWordsAux, hc'] using h)

theorem pyStrip_eq_nil_of_all_space (s : Str) (h : ∀ c ∈ s, isSpace c = true) :
    pyStrip s = [] := by
  have hl : pyLStrip s = [] := by
    rw [pyLStrip, List.dropWhile_eq_nil_iff]
    exact h
  rw [pyStrip, hl]
  simp [pyRStrip]

theorem pyStrip_eq_nil_of_pyWords_nil (s : Str) (h : pyWords s = []) :
    pyStrip s = [] :=
  pyStrip_eq_nil_of_all_space s (all_space_of_pyWords_nil s h)

theorem pyWords_nil_of_joinWords_nil {ws : List Str}
    (hw : ∀ w ∈ ws, w ≠ []) (h : joinWords ws = []) : ws = [] := by
  cases ws with
  | nil => rfl
  | cons w ws =>
    exfalso
    cases ws with
    | nil =>
      rw [joinWords_single] at h
      exact hw w (by simp) h
    | cons x xs =>
      rw [joinWords_cons w (x :: xs) (by simp)] at h
      simp at h

theorem isSub_extend_left {p s : Str} (t : Str) (h : isSub p s) : isSub p (t ++ s) := by
  obtain ⟨u, v, rfl⟩ := h
  exact ⟨t ++ u, v, by simp⟩

theorem isSub_extend_right {p s : Str} (t : Str) (h : isSub p s) : isSub p (s ++ t) := by
  obtain ⟨u, v, rfl⟩ := h
  exact ⟨u, v ++ t, by simp⟩

theorem isSub_trans {p q s : Str} (h1 : isSub p q) (h2 : isSub q s) : isSub p s := by
  obtain ⟨u, v, rfl⟩ := h1
  obtain ⟨x, y, rfl⟩ := h2
  exact ⟨x ++ u, v ++ y, by simp⟩

theorem isSub_map {p s : Str} (f : Char → Char) (h : isSub p s) :
    isSub (p.map f) (s.map f) := by
  obtain ⟨u, v, rfl⟩ := h
  exact ⟨u.map f, v.map f, by simp⟩

theorem isSub_filter {p s : Str} (f : Char → Bool) (hp : ∀ c ∈ p, f c = true)
    (h : isSub p s) : isSub p (s.filter f) := by
  obtain ⟨u, v, rfl⟩ := h
  refine ⟨u.filter f, v.filter f, ?_⟩
  simp [List.filter_append, List.filter_eq_self.mpr hp]

theorem pyWordsAux_isSub :
    ∀ (s cur : Str), ∀ w ∈ pyWordsAux cur s, isSub w (cur.reverse ++ s)
  | [], cur => by
    by_cases h : cur = []
    · simp [pyWordsAux, h]
    · intro w hw
      simp only [pyWordsAux, if_neg h, List.mem_singleton] at hw
      subst hw
      exact ⟨[], [], by simp⟩
  | c :: cs, cur => by
    intro w hw
    by_cases hc : isSpace c = true
    · have hsub : ∀ w ∈ pyWordsAux [] cs, isSub w (cur.reverse ++ c :: cs) := by
        intro w hw
        have := pyWordsAux_isSub cs [] w hw
        simp only [List.reverse_nil, List.nil_append] at this
        have h2 : isSub w (c :: cs) := by
          obtain ⟨u, v, rfl⟩ := this
          exact ⟨c :: u, v, by simp⟩
        exact isSub_extend_left _ h2
      by_cases h : cur = []
      · simp only [pyWordsAux, hc, if_true, if_pos h] at hw
        exact hsub w hw
      · simp only [pyWordsAux, hc, if_true, if_neg h, List.mem_cons] at hw
        rcases hw with rfl | hw
        · exact ⟨[], c :: cs, by simp⟩
        · exact hsub w hw
    · have hc' : isSpace c = false := by simpa using hc
      simp only [pyWordsAux, hc', Bool.false_eq_true, if_false] at hw
      have := pyWordsAux_isSub cs (c :: cur) w hw
      simpa using this

theorem isSub_nil_elim {p : Str} (h : isSub p []) : p = [] := by
  obtain ⟨u, v, huv⟩ := h
  have := congrArg List.length huv
  simp at this
  exact List.length_eq_zero.mp (by omega)

theorem append_eq_sep_split {c : Char} (hc : isSpace c = true) :
    ∀ (p xs v ys : Str), SpaceFree p → p ++ v = xs ++ c :: ys →
      ∃ w, xs = p ++ w
  | [], xs, v, ys, _, _ => ⟨xs, rfl⟩
  | a :: q, xs, v, ys, hp, heq => by
    cases xs with
    | nil =>
      exfalso
      simp only [List.cons_append, List.nil_append, List.cons.injEq] at heq
      have ha : isSpace a = false := hp a (by simp)
      rw [heq.1, hc] at ha
      exact Bool.true_eq_false.mp ha
    | cons b xs' =>
      simp only [List.cons_append, List.cons.injEq] at heq
      obtain ⟨rfl, h2⟩ := heq
      obtain ⟨w, hw⟩ :=
        append_eq_sep_split hc q xs' v ys (fun d hd => hp d (by simp [hd])) h2
      exact ⟨w, by simp [hw]⟩

theorem isSub_sep_split {c : Char} (hc : isSpace c = true) :
    ∀ (xs p ys : Str), p ≠ [] → SpaceFree p →
      isSub p (xs ++ c :: ys) → isSub p xs ∨ isSub p ys
  | [], p, ys, hne, hp, hsub => by
    right
    obtain ⟨u, v, huv⟩ := hsub
    cases u with
    | nil =>
      cases p with
      | nil => exact absurd rfl hne
      | cons a q =>
        exfalso
        simp only [List.nil_append, List.cons_append, List.cons.injEq] at huv
        have ha : isSpace a = false := hp a (by simp)
        rw [← huv.1, hc] at ha
        exact Bool.true_eq_false.mp ha
    | cons a u' =>
      simp only [List.nil_append, List.cons_append, List.cons.injEq] at huv
      exact ⟨u', v, huv.2⟩
  | x :: xs', p, ys, hne, hp, hsub => by
    obtain ⟨u, v, huv⟩ := hsub
    cases u with
    | nil =>
      left
      simp only [List.nil_append] at huv
      obtain ⟨w, hw⟩ := append_eq_sep_split hc p (x :: xs') v ys hp huv.symm
      exact ⟨[], w, by simp [hw]⟩
    | cons a u' =>
      simp only [List.cons_append, List.cons.injEq] at huv
      rcases isSub_sep_split hc xs' p ys hne hp ⟨u', v, huv.2⟩ with h | h
      · left
        obtain ⟨u2, v2, h2⟩ := h
        exact ⟨x :: u2, v2, by simp [h2]⟩
      · right
        exact h

theorem isSub_word_of_isSub :
    ∀ (s cur p : Str), p ≠ [] → SpaceFree p → isSub p (cur.reverse ++ s) →
      ∃ w ∈ pyWordsAux cur s, isSub p w
  | [], cur, p, hne, hp, hsub => by
    have hsub' : isSub p cur.reverse := by simpa using hsub
    have hcur : cur ≠ [] := by
      intro h
      subst h
      exact hne (isSub_nil_elim (by simpa using hsub'))
    refine ⟨cur.reverse, ?_, hsub'⟩
    simp [pyWordsAux, hcur]
  | c :: cs, cur, p, hne, hp, hsub => by
    by_cases hc : isSpace c = true
    · rcases isSub_sep_split hc cur.reverse p cs hne hp hsub with h | h
      · have hcur : cur ≠ [] := by
          intro hcc
          subst hcc
          exact hne (isSub_nil_elim (by simpa using h))
        refine ⟨cur.reverse, ?_, h⟩
        simp [pyWordsAux, hc, hcur]
      · obtain ⟨w, hw, hsubw⟩ := isSub_word_of_isSub cs [] p hne hp (by simpa using h)
        refine ⟨w, ?_, hsubw⟩
        by_cases hcc : cur = [] <;> simp [pyWordsAux, hc, hcc, hw]
    · have hc' : isSpace c = false := by simpa using hc
      have hsub' : isSub p ((c :: cur).reverse ++ cs) := by
        obtain ⟨u, v, huv⟩ := hsub
        exact ⟨u, v, by simpa using huv⟩
      obtain ⟨w, hw, hsubw⟩ := isSub_word_of_isSub cs (c :: cur) p hne hp hsub'
      refine ⟨w, ?_, hsubw⟩
      simpa [pyWordsAux, hc'] using hw

theorem dropLast_append_getLastD {α : Type} :
    ∀ (l : List α) (d : α), l ≠ [] → l.dropLast ++ [l.getLastD d] = l
  | [a], _, _ => by simp
  | a :: b :: t, d, _ => by
    have ih := dropLast_append_getLastD (b :: t) a (by simp)
    calc (a :: b :: t).dropLast ++ [(a :: b :: t).getLastD d]
        = a :: ((b :: t).dropLast ++ [(b :: t).getLastD a]) := by
          simp [List.getLastD]
      _ = a :: b :: t := by rw [ih]

theorem getLastD_mem {α : Type} (l : List α) (d : α) (h : l ≠ []) :
    l.getLastD d ∈ l := by
  have h2 := dropLast_append_getLastD l d h
  have h3 : l.getLastD d ∈ l.dropLast ++ [l.getLastD d] := by simp
  rwa [h2] at h3

theorem weakEnding_append (cur rest : List Str) (h : cur ≠ []) :
    (weakEnding cur rest).1 ++ (weakEnding cur rest).2 = cur ++ rest := by
  unfold weakEnding
  split
  · show cur.dropLast ++ cur.getLastD [] :: rest = cur ++ rest
    rw [show cur.dropLast ++ cur.getLastD [] :: rest
        = (cur.dropLast ++ [cur.getLastD []]) ++ rest by simp]
    rw [dropLast_append_getLastD cur [] h]
  · rfl

theorem weakEnding_fst_ne_nil (cur rest : List Str) (h : cur ≠ []) :
    (weakEnding cur rest).1 ≠ [] := by
  unfold weakEnding
  split
  · next hc =>
    show cur.dropLast ≠ []
    intro hn
    have h2 := congrArg List.length hn
    simp [List.length_dropLast] at h2
    have h3 := hc.1
    omega
  · exact h

theorem wrapWords_flatten (μ : Str → ℚ) (maxW : ℚ) (ws : List Str) :
    (wrapWords μ maxW ws).flatten = ws := by
  match ws with
  | [] => simp [wrapWords]
  | w :: ws' =>
    rw [wrapWords]
    have hne : (greedyExtend μ maxW [w] ws').1 ≠ [] := by
      have := greedyExtend_fst_length μ maxW ws' [w]
      intro h
      rw [h] at this
      simp at this
    have ih := wrapWords_flatten μ maxW
      (weakEnding (greedyExtend μ maxW [w] ws').1 (greedyExtend μ maxW [w] ws').2).2
    simp only [List.flatten_cons, ih]
    rw [weakEnding_append _ _ hne, greedyExtend_append]
    simp
termination_by ws.length
decreasing_by simpa using wrapStep_rest_lt μ maxW w ws'

theorem wrapWords_lines_ne_nil (μ : Str → ℚ) (maxW : ℚ) (ws : List Str) :
    ∀ line ∈ wrapWords μ maxW ws, line ≠ [] := by
  match ws with
  | [] => simp [wrapWords]
  | w :: ws' =>
    rw [wrapWords]
    intro line hline
    have hne : (greedyExtend μ maxW [w] ws').1 ≠ [] := by
      have := greedyExtend_fst_length μ maxW ws' [w]
      intro h
      rw [h] at this
      simp at this
    rcases List.mem_cons.mp hline with rfl | hline
    · exact weakEnding_fst_ne_nil _ _ hne
    · exact wrapWords_lines_ne_nil μ maxW _ line hline
termination_by ws.length
decreasing_by simpa using wrapStep_rest_lt μ maxW w ws'

theorem antiOrphan_words (μ : Str → ℚ) (maxW : ℚ) (out : List Str) :
    (antiOrphan μ maxW out).flatMap pyWords = out.flatMap pyWords := by
  unfold antiOrphan
  match hrev : out.reverse with
  | [] => rfl
  | [lastL] => rfl
  | lastL :: prevL :: restRev =>
    have hout : out = restRev.reverse ++ [prevL, lastL] := by
      have := congrArg List.reverse hrev
      simpa using this
    by_cases h1 : (pyWords lastL).length = 1 ∧ 3 ≤ (pyWords prevL).length
    · simp only [if_pos h1]
      by_cases h2 : μ ((pyWords prevL).getLastD [] ++ ' ' :: lastL) ≤ maxW ∧
          μ (joinWords (pyWords prevL).dropLast) ≤ maxW
      · simp only [if_pos h2]
        rw [hout]
        simp only [List.flatMap_append, List.flatMap_cons, List.flatMap_nil,
          List.append_nil]
        congr 1
        have hml : (pyWords prevL).getLastD [] ∈ pyWords prevL :=
          getLastD_mem _ _ (by intro h; rw [h] at h1; simp at h1)
        have hmw := pyWords_words (s := prevL) _ hml
        have hnp : pyWords (joinWords (pyWords prevL).dropLast)
            = (pyWords prevL).dropLast := by
          refine pyWords_joinWords _ ?_
          intro u hu
          exact pyWords_words _ (List.mem_of_mem_dropLast hu)
        have hnl : pyWords ((pyWords prevL).getLastD [] ++ ' ' :: lastL)
            = (pyWords prevL).getLastD [] :: pyWords lastL := by
          rw [show pyWords ((pyWords prevL).getLastD [] ++ ' ' :: lastL)
              = pyWordsAux [] ((pyWords prevL).getLastD [] ++ ' ' :: lastL) from rfl]
          rw [pyWordsAux_append_space (c := ' ') (by decide)
            ((pyWords prevL).getLastD []) [] lastL]
          rw [pyWordsAux_no_space ((pyWords prevL).getLastD []) [] hmw.2]
          simp only [List.reverse_nil, List.nil_append, if_neg hmw.1]
          rfl
        rw [hnp, hnl]
        rw [show ((pyWords prevL).getLastD [] :: pyWords lastL)
            = [(pyWords prevL).getLastD []] ++ pyWords lastL from rfl]
        rw [← List.append_assoc]
        rw [dropLast_append_getLastD _ _ (by intro h; rw [h] at h1; simp at h1)]
      · rw [if_neg h2]
    · simp [if_neg h1]

theorem map_joinWords_flatMap_pyWords (L : List (List Str))
    (h : ∀ l ∈ L, ∀ w ∈ l, w ≠ [] ∧ SpaceFree w) :
    (L.map joinWords).flatMap pyWords = L.flatten := by
  induction L with
  | nil => rfl
  | cons l L ih =>
    simp only [List.map_cons, List.flatMap_cons, List.flatten_cons]
    rw [pyWords_joinWords l (h l (by simp)), ih (fun l' hl' => h l' (by simp [hl']))]

/-- Word preservation through `_wrap_one_lyric_line_by_width`: the words of
the produced display lines are exactly the words of the input line. -/
theorem wrap_one_lyric_line_words (μ : Str → ℚ) (line : Str) (maxWidthPx : ℚ) :
    (wrap_one_lyric_line_by_width μ line maxWidthPx).flatMap pyWords = pyWords line := by
  unfold wrap_one_lyric_line_by_width
  by_cases h : pyStrip line = []
  · simp only [h, if_pos rfl, List.flatMap_nil]
    rw [← pyWords_strip line, h]
    rfl
  · simp only [if_neg h]
    rw [antiOrphan_words]
    rw [map_joinWords_flatMap_pyWords _ ?_]
    · rw [wrapWords_flatten, pyWords_strip]
    · intro l hl w hw
      have hmem : w ∈ (wrapWords μ (maxWidthPx * (97 / 100)) (pyWords (pyStrip line))).flatten :=
        List.mem_flatten.mpr ⟨l, hl, hw⟩
      rw [wrapWords_flatten] at hmem
      exact pyWords_words w hmem

theorem chunkList_flatten {α : Type} (n : Nat) (l : List α) :
    (chunkList n l).flatten = l := by
  match l with
  | [] => simp [chunkList]
  | x :: xs =>
    rw [chunkList]
    split
    · simp
    · rw [List.flatten_cons, chunkList_flatten n ((x :: xs).drop n)]
      exact List.take_append_drop n (x :: xs)
termination_by l.length
decreasing_by
  simp only [List.length_drop, List.length_cons]
  omega

theorem chunkList_mem {α : Type} (n : Nat) (hn : n ≠ 0) (l : List α) :
    ∀ c ∈ chunkList n l, c ≠ [] ∧ c.length ≤ n := by
  match l with
  | [] => simp [chunkList]
  | x :: xs =>
    rw [chunkList]
    split
    · next h0 => exact absurd h0 hn
    · next h0 =>
      intro c hc
      rcases List.mem_cons.mp hc with rfl | hc
      · constructor
        · have hlen : ((x :: xs).take n).length = min n (xs.length + 1) := by simp
          intro hnil
          rw [hnil] at hlen
          simp at hlen
          omega
        · simp
      · exact chunkList_mem n hn ((x :: xs).drop n) c hc
termination_by l.length
decreasing_by
  simp only [List.length_drop, List.length_cons]
  omega

theorem flatMap_fst_chunkPages (n : Nat) (w : List Str) :
    ((chunkList n w).map
      (fun c => (c, true :: List.replicate (c.length - 1) false))).flatMap Prod.fst
    = w := by
  have h : ∀ L : List (List Str),
      (L.map (fun c => (c, true :: List.replicate (c.length - 1) false))).flatMap Prod.fst
        = L.flatten := by
    intro L
    induction L with
    | nil => rfl
    | cons a L ih => simp [ih]
  rw [h, chunkList_flatten]

theorem packStep_lines (μ : Str → ℚ) (boxW lineH gap budget : ℚ) (st : PackState)
    (lyric : Str) :
    (packStep μ boxW lineH gap budget st lyric).slides.flatMap Prod.fst ++
        (packStep μ boxW lineH gap budget st lyric).curLines
      = st.slides.flatMap Prod.fst ++ st.curLines
          ++ wrap_one_lyric_line_by_width μ lyric boxW := by
  simp only [packStep]
  split
  · next hw => simp [hw]
  · next hw =>
    split
    · split
      · split
        · simp [List.flatMap_append, flatMap_fst_chunkPages]
        · simp
      · split
        · next hC =>
          simp [List.flatMap_append, flatMap_fst_chunkPages, hC.1]
        · simp
    · next hcur =>
      split
      · next hA => exact absurd hA.1 hcur
      · split
        · next hC =>
          simp [List.flatMap_append, flatMap_fst_chunkPages, hC.1]
        · simp

theorem join_splitGroupsAux :
    ∀ (ps : List (Str × Bool)) (curL : List Str) (curF : List Bool),
      (curL = [] → curF = []) →
      join_lyric_groups (splitGroupsAux curL curF ps)
        = (curL ++ ps.map Prod.fst, curF ++ ps.map Prod.snd)
  | [], curL, curF, h => by
    by_cases hc : curL = []
    · simp [splitGroupsAux, hc, h hc, join_lyric_groups]
    · simp [splitGroupsAux, hc, join_lyric_groups]
  | (ln, fl) :: ps, curL, curF, h => by
    by_cases hc : fl ∧ curL ≠ []
    · rw [splitGroupsAux, if_pos hc]
      simp only [join_lyric_groups, List.flatMap_cons]
      have ih2 := join_splitGroupsAux ps [ln] [fl] (by simp)
      simp only [join_lyric_groups, Prod.mk.injEq] at ih2
      rw [ih2.1, ih2.2]
      simp
    · rw [splitGroupsAux, if_neg hc]
      rw [join_splitGroupsAux ps (curL ++ [ln]) (curF ++ [fl]) (by simp)]
      simp

theorem join_split_groups (lines : List Str) (flags : List Bool)
    (h : lines.length = flags.length) :
    join_lyric_groups (split_into_lyric_groups lines flags) = (lines, flags) := by
  rw [split_into_lyric_groups, join_splitGroupsAux (lines.zip flags) [] [] (by simp)]
  simp only [List.nil_append]
  rw [List.map_fst_zip _ _ (le_of_eq h), List.map_snd_zip _ _ (ge_of_eq h)]

theorem splitGroupsAux_good :
    ∀ (ps : List (Str × Bool)) (curL : List Str) (curF : List Bool),
      curL.length = curF.length → (∀ b ∈ curF.tail, b = false) →
      ∀ g ∈ splitGroupsAux curL curF ps,
        g.1 ≠ [] ∧ g.1.length = g.2.length ∧ ∀ b ∈ g.2.tail, b = false
  | [], curL, curF, hlen, htail => by
    by_cases hc : curL = []
    · simp [splitGroupsAux, hc]
    · intro g hg
      simp only [splitGroupsAux, if_neg hc, List.mem_singleton] at hg
      subst hg
      exact ⟨hc, hlen, htail⟩
  | (ln, fl) :: ps, curL, curF, hlen, htail => by
    intro g hg
    by_cases hc : fl ∧ curL ≠ []
    · rw [splitGroupsAux, if_pos hc] at hg
      rcases List.mem_cons.mp hg with rfl | hg
      · exact ⟨hc.2, hlen, htail⟩
      · exact splitGroupsAux_good ps [ln] [fl] (by simp) (by simp) g hg
    · rw [splitGroupsAux, if_neg hc] at hg
      refine splitGroupsAux_good ps (curL ++ [ln]) (curF ++ [fl]) (by simp [hlen]) ?_ g hg
      intro b hb
      by_cases hcl : curL = []
      · have hcf : curF = [] := by
          have := hlen
          rw [hcl] at this
          simpa using (List.length_eq_zero.mp this.symm)
        rw [hcf] at hb
        simp at hb
      · have hfl : fl = false := by
          rcases Bool.eq_false_or_eq_true fl with h | h
          · exact absurd ⟨h, hcl⟩ hc
          · exact h
        have hcfne : curF ≠ [] := by
          intro hcf
          rw [hcf] at hlen
          exact hcl (List.length_eq_zero.mp (by simpa using hlen))
        obtain ⟨b0, bs, rfl⟩ := List.exists_cons_of_ne_nil hcfne
        simp only [List.cons_append, List.tail_cons] at hb
        rcases List.mem_append.mp hb with hb | hb
        · exact htail b (by simpa using hb)
        · rw [List.mem_singleton] at hb
          rw [hb, hfl]

theorem splitGroupsAux_all_true :
    ∀ (ps : List (Str × Bool)) (curL : List Str) (curF : List Bool),
      curF.head? = some true →
      ∀ g ∈ splitGroupsAux curL curF ps, g.2.head? = some true
  | [], curL, curF, hhead => by
    by_cases hc : curL = []
    · simp [splitGroupsAux, hc]
    · intro g hg
      simp only [splitGroupsAux, if_neg hc, List.mem_singleton] at hg
      subst hg
      exact hhead
  | (ln, fl) :: ps, curL, curF, hhead => by
    intro g hg
    by_cases hc : fl ∧ curL ≠ []
    · rw [splitGroupsAux, if_pos hc] at hg
      rcases List.mem_cons.mp hg with rfl | hg
      · exact hhead
      · exact splitGroupsAux_all_true ps [ln] [fl] (by simp [hc.1]) g hg
    · rw [splitGroupsAux, if_neg hc] at hg
      have hne : curF ≠ [] := by
        intro h
        rw [h] at hhead
        simp at hhead
      refine splitGroupsAux_all_true ps (curL ++ [ln]) (curF ++ [fl]) ?_ g hg
      obtain ⟨b0, bs, rfl⟩ := List.exists_cons_of_ne_nil hne
      simpa using hhead

theorem splitGroupsAux_tail_true :
    ∀ (ps : List (Str × Bool)) (curL : List Str) (curF : List Bool),
      ∀ g ∈ (splitGroupsAux curL curF ps).tail, g.2.head? = some true
  | [], curL, curF => by
    by_cases hc : curL = [] <;> simp [splitGroupsAux, hc]
  | (ln, fl) :: ps, curL, curF => by
    intro g hg
    by_cases hc : fl ∧ curL ≠ []
    · rw [splitGroupsAux, if_pos hc] at hg
      simp only [List.tail_cons] at hg
      have hfl : fl = true := hc.1
      exact splitGroupsAux_all_true ps [ln] [fl] (by simp [hfl]) g hg
    · rw [splitGroupsAux, if_neg hc] at hg
      exact splitGroupsAux_tail_true ps (curL ++ [ln]) (curF ++ [fl]) g hg

theorem splitGroupsAux_absorb :
    ∀ (gp rest : List (Str × Bool)) (curL : List Str) (curF : List Bool),
      (∀ p ∈ gp, p.2 = false) →
      splitGroupsAux curL curF (gp ++ rest)
        = splitGroupsAux (curL ++ gp.map Prod.fst) (curF ++ gp.map Prod.snd) rest
  | [], rest, curL, curF, _ => by simp
  | (ln, fl) :: gp, rest, curL, curF, h => by
    have hfl : fl = false := h (ln, fl) (by simp)
    rw [List.cons_append, splitGroupsAux, if_neg (by simp [hfl])]
    rw [splitGroupsAux_absorb gp rest (curL ++ [ln]) (curF ++ [fl])
      (fun p hp => h p (by simp [hp]))]
    simp

theorem zip_join_groups :
    ∀ (G : List (List Str × List Bool)), (∀ g ∈ G, g.1.length = g.2.length) →
      (join_lyric_groups G).1.zip (join_lyric_groups G).2
        = G.flatMap (fun g => g.1.zip g.2)
  | [], _ => rfl
  | g :: G, h => by
    simp only [join_lyric_groups, List.flatMap_cons]
    rw [List.zip_append (h g (by simp))]
    rw [← zip_join_groups G (fun g' hg' => h g' (by simp [hg']))]
    rfl

theorem split_join_groups :
    ∀ (G : List (List Str × List Bool)),
      (∀ g ∈ G, g.1 ≠ [] ∧ g.1.length = g.2.length ∧ ∀ b ∈ g.2.tail, b = false) →
      (∀ g ∈ G.tail, g.2.head? = some true) →
      split_into_lyric_groups (join_lyric_groups G).1 (join_lyric_groups G).2 = G
  | [], _, _ => rfl
  | [(l, f)], hgood, _ => by
    obtain ⟨hne, hlen, htf⟩ := hgood (l, f) (by simp)
    obtain ⟨x, l0, rfl⟩ := List.exists_cons_of_ne_nil hne
    have hfne : f ≠ [] := by
      intro h
      rw [h] at hlen
      simp at hlen
    obtain ⟨b, f0, rfl⟩ := List.exists_cons_of_ne_nil hfne
    rw [split_into_lyric_groups, zip_join_groups _
      (fun g' hg' => (hgood g' hg').2.1)]
    simp only [List.flatMap_cons, List.flatMap_nil, List.zip_cons_cons,
      List.append_nil, List.cons_append]
    rw [splitGroupsAux, if_neg (by simp)]
    have habs := splitGroupsAux_absorb (List.zip l0 f0) [] [x] [b] ?hzf
    case hzf =>
      rintro ⟨a, c⟩ hp
      have hc := (List.of_mem_zip hp).2
      exact htf c (by simpa using hc)
    simp only [List.nil_append, List.append_nil] at habs ⊢
    rw [habs]
    have hl0 : l0.length = f0.length := by simpa using hlen
    rw [List.map_fst_zip _ _ (le_of_eq hl0), List.map_snd_zip _ _ (ge_of_eq hl0)]
    rw [splitGroupsAux]
    simp
  | (l, f) :: g' :: G', hgood, htail => by
    have ih := split_join_groups (g' :: G')
      (fun g hg => hgood g (List.mem_cons_of_mem _ hg))
      (fun g hg => htail g (by
        simp only [List.tail_cons] at hg ⊢
        exact List.mem_cons_of_mem _ hg))
    obtain ⟨hne, hlen, htf⟩ := hgood (l, f) (by simp)
    obtain ⟨x, l0, rfl⟩ := List.exists_cons_of_ne_nil hne
    have hfne : f ≠ [] := by
      intro h
      rw [h] at hlen
      simp at hlen
    obtain ⟨b, f0, rfl⟩ := List.exists_cons_of_ne_nil hfne
    obtain ⟨g1, g2⟩ := g'
    obtain ⟨hne', hlen', _⟩ := hgood (g1, g2) (by simp)
    have hhead' : (g1, g2).2.head? = some true := htail (g1, g2) (by simp)
    simp only at hne' hhead'
    obtain ⟨y, l1, rfl⟩ := List.exists_cons_of_ne_nil hne'
    have hfne' : g2 ≠ [] := by
      intro h
      rw [h] at hhead'
      simp at hhead'
    obtain ⟨b1, f1, rfl⟩ := List.exists_cons_of_ne_nil hfne'
    have hb1 : b1 = true := by simpa using hhead'
    subst hb1
    have hl0 : l0.length = f0.length := by simpa using hlen
    rw [split_into_lyric_groups, zip_join_groups _
      (fun g hg => (hgood g hg).2.1)]
    have habs := splitGroupsAux_absorb (List.zip l0 f0)
      (((y :: l1, true :: f1) :: G').flatMap fun g => g.1.zip g.2) [x] [b] ?hzf
    case hzf =>
      rintro ⟨a, c⟩ hp
      have hc := (List.of_mem_zip hp).2
      exact htf c (by simpa using hc)
    rw [split_into_lyric_groups, zip_join_groups _
      (fun g hg => (hgood g (List.mem_cons_of_mem _ hg)).2.1)] at ih
    rw [List.map_fst_zip _ _ (le_of_eq hl0), List.map_snd_zip _ _ (ge_of_eq hl0)] at habs
    simp only [List.flatMap_cons, List.zip_cons_cons, List.cons_append,
      List.nil_append] at habs ih ⊢
    rw [splitGroupsAux, if_neg (by simp)]
    simp only [List.nil_append]
    rw [habs]
    rw [splitGroupsAux, if_pos (by simp)]
    rw [splitGroupsAux, if_neg (by simp)] at ih
    simp only [List.nil_append] at ih
    rw [ih]

theorem groups_good (lines : List Str) (flags : List Bool) :
    ∀ g ∈ split_into_lyric_groups lines flags,
      g.1 ≠ [] ∧ g.1.length = g.2.length ∧ ∀ b ∈ g.2.tail, b = false :=
  splitGroupsAux_good _ [] [] rfl (by simp)

theorem groups_tail_true (lines : List Str) (flags : List Bool) :
    ∀ g ∈ (split_into_lyric_groups lines flags).tail, g.2.head? = some true :=
  splitGroupsAux_tail_true _ [] []

theorem splitGroupsAux_ne_nil :
    ∀ (ps : List (Str × Bool)) (curL : List Str) (curF : List Bool),
      (ps ≠ [] ∨ curL ≠ []) → splitGroupsAux curL curF ps ≠ []
  | [], curL, curF, h => by
    rcases h with h | h
    · exact absurd rfl h
    · simp [splitGroupsAux, h]
  | (ln, fl) :: ps, curL, curF, _ => by
    by_cases hc : fl ∧ curL ≠ []
    · simp [splitGroupsAux, hc]
    · rw [splitGroupsAux, if_neg hc]
      exact splitGroupsAux_ne_nil ps _ _ (Or.inr (by simp))

theorem split_into_ne_nil (lines : List Str) (flags : List Bool)
    (hl : lines ≠ []) (hf : flags ≠ []) :
    split_into_lyric_groups lines flags ≠ [] := by
  obtain ⟨x, ls, rfl⟩ := List.exists_cons_of_ne_nil hl
  obtain ⟨b, fs, rfl⟩ := List.exists_cons_of_ne_nil hf
  rw [split_into_lyric_groups, List.zip_cons_cons]
  exact splitGroupsAux_ne_nil _ [] [] (Or.inl (by simp))

theorem split_into_all_true (lines : List Str) (flags : List Bool)
    (hl : lines ≠ []) (hf : flags.head? = some true) :
    ∀ g ∈ split_into_lyric_groups lines flags, g.2.head? = some true := by
  obtain ⟨x, ls, rfl⟩ := List.exists_cons_of_ne_nil hl
  have hfne : flags ≠ [] := by
    intro h
    rw [h] at hf
    simp at hf
  obtain ⟨b, fs, rfl⟩ := List.exists_cons_of_ne_nil hfne
  have hb : b = true := by simpa using hf
  subst hb
  rw [split_into_lyric_groups, List.zip_cons_cons]
  rw [splitGroupsAux, if_neg (by simp)]
  simp only [List.nil_append]
  exact splitGroupsAux_all_true _ [x] [true] (by simp)

theorem join_groups_len (G : List (List Str × List Bool))
    (h : ∀ g ∈ G, g.1.length = g.2.length) :
    (join_lyric_groups G).1.length = (join_lyric_groups G).2.length := by
  induction G with
  | nil => rfl
  | cons g G ih =>
    simp only [join_lyric_groups, List.flatMap_cons, List.length_append]
    rw [h g (by simp)]
    have := ih (fun g' hg' => h g' (by simp [hg']))
    simp only [join_lyric_groups] at this
    rw [this]

theorem join_groups_fst_ne_nil (g : List Str × List Bool)
    (G : List (List Str × List Bool)) (h : g.1 ≠ []) :
    (join_lyric_groups (g :: G)).1 ≠ [] := by
  simp only [join_lyric_groups, List.flatMap_cons]
  intro hc
  rw [List.append_eq_nil] at hc
  exact h hc.1

theorem join_groups_head (g : List Str × List Bool)
    (G : List (List Str × List Bool)) (h : g.2 ≠ []) :
    (join_lyric_groups (g :: G)).2.head? = g.2.head? := by
  simp only [join_lyric_groups, List.flatMap_cons]
  obtain ⟨b, bs, hb⟩ := List.exists_cons_of_ne_nil h
  rw [hb]
  simp

theorem rebalanceLoop_master (minPer minLeft : Nat) (hml : 1 ≤ minLeft) :
    ∀ (l : List Page) (prev : Page), PageWF prev → (∀ p ∈ l, PageWF p) →
      (∀ q ∈ rebalanceLoop minPer minLeft prev l, PageWF q) ∧
      (rebalanceLoop minPer minLeft prev l).flatMap Prod.fst
        = prev.1 ++ l.flatMap Prod.fst
  | [], prev, hprev, _ => by
    constructor
    · intro q hq
      simp only [rebalanceLoop, List.mem_singleton] at hq
      subst hq
      exact hprev
    · simp [rebalanceLoop]
  | cur :: rest, prev, hprev, hl => by
    rw [rebalanceLoop]
    split
    · have ih := rebalanceLoop_master minPer minLeft hml rest cur (hl cur (by simp))
        (fun p hp => hl p (by simp [hp]))
      constructor
      · intro q hq
        rcases List.mem_cons.mp hq with rfl | hq
        · exact hprev
        · exact ih.1 q hq
      · simp only [List.flatMap_cons, ih.2]
    · next hmove =>
      push_neg at hmove
      obtain ⟨hcurlt, hprevgt⟩ := hmove
      obtain ⟨hp1, hp2, hp3⟩ := hprev
      obtain ⟨hc1, hc2, hc3⟩ := hl cur (by simp)
      have hGgood := groups_good prev.1 prev.2
      have hGtrue := split_into_all_true prev.1 prev.2 hp1 hp3
      have hCgood := groups_good cur.1 cur.2
      have hPGne : split_into_lyric_groups prev.1 prev.2 ≠ [] := by
        intro h
        rw [h] at hprevgt
        simp at hprevgt
      have hmoved_mem : (split_into_lyric_groups prev.1 prev.2).getLastD ([], [])
          ∈ split_into_lyric_groups prev.1 prev.2 := getLastD_mem _ _ hPGne
      have hmoved_good := hGgood _ hmoved_mem
      have hmoved_true := hGtrue _ hmoved_mem
      have hmoved_f_ne : ((split_into_lyric_groups prev.1 prev.2).getLastD ([], [])).2 ≠ [] := by
        intro h
        rw [h] at hmoved_true
        simp at hmoved_true
      have hPG2 : 2 ≤ (split_into_lyric_groups prev.1 prev.2).length := by omega
      obtain ⟨g0, gs, hPGeq⟩ :=
        List.exists_cons_of_ne_nil hPGne
      have hgs_ne : gs ≠ [] := by
        intro h
        rw [h] at hPGeq
        rw [hPGeq] at hPG2
        simp at hPG2
      have hdropeq : (split_into_lyric_groups prev.1 prev.2).dropLast
          = g0 :: gs.dropLast := by
        rw [hPGeq]
        obtain ⟨g1, gs', rfl⟩ := List.exists_cons_of_ne_nil hgs_ne
        simp
      have hg0_mem : g0 ∈ split_into_lyric_groups prev.1 prev.2 := by
        rw [hPGeq]
        simp
      have hg0_good := hGgood g0 hg0_mem
      have hg0_true := hGtrue g0 hg0_mem
      have hg0_f_ne : g0.2 ≠ [] := by
        intro h
        rw [h] at hg0_true
        simp at hg0_true
      have hNewPrevWF :
          PageWF (join_lyric_groups (split_into_lyric_groups prev.1 prev.2).dropLast) := by
        rw [hdropeq]
        refine ⟨join_groups_fst_ne_nil g0 _ hg0_good.1, ?_, ?_⟩
        · refine join_groups_len _ ?_
          intro g hg
          refine (hGgood g ?_).2.1
          rw [hPGeq]
          rcases List.mem_cons.mp hg with rfl | hg
          · simp
          · exact List.mem_cons_of_mem _ (List.mem_of_mem_dropLast hg)
        · rw [join_groups_head g0 _ hg0_f_ne]
          exact hg0_true
      have hNewCurWF :
          PageWF (join_lyric_groups
            ((split_into_lyric_groups prev.1 prev.2).getLastD ([], [])
              :: split_into_lyric_groups cur.1 cur.2)) := by
        refine ⟨join_groups_fst_ne_nil _ _ hmoved_good.1, ?_, ?_⟩
        · refine join_groups_len _ ?_
          intro g hg
          rcases List.mem_cons.mp hg with rfl | hg
          · exact hmoved_good.2.1
          · exact (hCgood g hg).2.1
        · rw [join_groups_head _ _ hmoved_f_ne]
          exact hmoved_true
      have ih := rebalanceLoop_master minPer minLeft hml rest _ hNewCurWF
        (fun p hp => hl p (by simp [hp]))
      constructor
      · intro q hq
        rcases List.mem_cons.mp hq with rfl | hq
        · exact hNewPrevWF
        · exact ih.1 q hq
      · simp only [List.flatMap_cons, ih.2]
        have hjp := congrArg Prod.fst (join_split_groups prev.1 prev.2 hp2)
        have hjc := congrArg Prod.fst (join_split_groups cur.1 cur.2 hc2)
        simp only [join_lyric_groups] at hjp hjc
        have hkey : (split_into_lyric_groups prev.1 prev.2).dropLast.flatMap Prod.fst
            ++ ((split_into_lyric_groups prev.1 prev.2).getLastD ([], [])).1 = prev.1 := by
          have h1 := dropLast_append_getLastD _ (([], []) : List Str × List Bool) hPGne
          have h2 := congrArg (fun L => L.flatMap Prod.fst) h1
          simp only [List.flatMap_append, List.flatMap_cons, List.flatMap_nil,
            List.append_nil] at h2
          rw [hjp] at h2
          exact h2
        simp only [join_lyric_groups, List.flatMap_cons]
        rw [hjc]
        simp only [← List.append_assoc]
        rw [hkey]

theorem rebalance_master (packed : List Page) (minPer minLeft : Nat) (hml : 1 ≤ minLeft)
    (h : ∀ p ∈ packed, PageWF p) :
    (∀ q ∈ rebalance_single_lyric_slides packed minPer minLeft, PageWF q) ∧
    (rebalance_single_lyric_slides packed minPer minLeft).flatMap Prod.fst
      = packed.flatMap Prod.fst := by
  match packed with
  | [] => simp [rebalance_single_lyric_slides]
  | [p] =>
    refine ⟨?_, by simp [rebalance_single_lyric_slides]⟩
    intro q hq
    simp only [rebalance_single_lyric_slides, List.mem_singleton] at hq
    subst hq
    exact h q (by simp)
  | p :: q :: rest =>
    have hred : rebalance_single_lyric_slides (p :: q :: rest) minPer minLeft
        = rebalanceLoop minPer minLeft p (q :: rest) := rfl
    rw [hred]
    have hm := rebalanceLoop_master minPer minLeft hml (q :: rest) p (h p (by simp))
      (fun r hr => h r (by simp [hr]))
    exact ⟨hm.1, by rw [hm.2]; simp⟩

/-- The condition under which the index loop of
`_rebalance_single_lyric_slides` leaves a pair of adjacent slides alone. -/
def chainCond (minPer minLeft : Nat) (a b : Page) : Prop :=
  minPer ≤ (split_into_lyric_groups b.1 b.2).length ∨
    (split_into_lyric_groups a.1 a.2).length ≤ minLeft

theorem rebalanceLoop_head (minPer minLeft : Nat) (prev : Page) (l : List Page) :
    (∃ t, rebalanceLoop minPer minLeft prev l = prev :: t) ∨
    ((∃ t, rebalanceLoop minPer minLeft prev l
        = join_lyric_groups (split_into_lyric_groups prev.1 prev.2).dropLast :: t) ∧
      minLeft < (split_into_lyric_groups prev.1 prev.2).length) := by
  cases l with
  | nil => exact Or.inl ⟨[], by rw [rebalanceLoop]⟩
  | cons cur rest =>
    rw [rebalanceLoop]
    split
    · exact Or.inl ⟨_, rfl⟩
    · next hmove =>
      push_neg at hmove
      exact Or.inr ⟨⟨_, rfl⟩, hmove.2⟩

theorem rebalanceLoop_id (minPer minLeft : Nat) :
    ∀ (l : List Page) (prev : Page),
      List.Chain' (chainCond minPer minLeft) (prev :: l) →
      rebalanceLoop minPer minLeft prev l = prev :: l
  | [], prev, _ => by rw [rebalanceLoop]
  | cur :: rest, prev, hch => by
    rw [rebalanceLoop]
    have hcc : chainCond minPer minLeft prev cur := (List.chain'_cons.mp hch).1
    unfold chainCond at hcc
    rw [if_pos hcc]
    rw [rebalanceLoop_id minPer minLeft rest cur (List.chain'_cons.mp hch).2]

theorem groups_newPrev (prev : Page) (h : PageWF prev) :
    split_into_lyric_groups
        (join_lyric_groups (split_into_lyric_groups prev.1 prev.2).dropLast).1
        (join_lyric_groups (split_into_lyric_groups prev.1 prev.2).dropLast).2
      = (split_into_lyric_groups prev.1 prev.2).dropLast := by
  refine split_join_groups _ ?_ ?_
  · intro g hg
    exact groups_good prev.1 prev.2 g (List.mem_of_mem_dropLast hg)
  · intro g hg
    exact split_into_all_true prev.1 prev.2 h.1 h.2.2 g
      (List.mem_of_mem_dropLast (List.mem_of_mem_tail hg))

theorem groups_newCur (prev cur : Page) (hc : PageWF cur)
    (hne : split_into_lyric_groups prev.1 prev.2 ≠ []) :
    split_into_lyric_groups
        (join_lyric_groups ((split_into_lyric_groups prev.1 prev.2).getLastD ([], [])
          :: split_into_lyric_groups cur.1 cur.2)).1
        (join_lyric_groups ((split_into_lyric_groups prev.1 prev.2).getLastD ([], [])
          :: split_into_lyric_groups cur.1 cur.2)).2
      = (split_into_lyric_groups prev.1 prev.2).getLastD ([], [])
          :: split_into_lyric_groups cur.1 cur.2 := by
  refine split_join_groups _ ?_ ?_
  · intro g hg
    rcases List.mem_cons.mp hg with rfl | hg
    · exact groups_good prev.1 prev.2 _ (getLastD_mem _ _ hne)
    · exact groups_good cur.1 cur.2 g hg
  · intro g hg
    simp only [List.tail_cons] at hg
    exact split_into_all_true cur.1 cur.2 hc.1 hc.2.2 g hg

theorem newPrev_WF (prev : Page) (h : PageWF prev)
    (h2 : 2 ≤ (split_into_lyric_groups prev.1 prev.2).length) :
    PageWF (join_lyric_groups (split_into_lyric_groups prev.1 prev.2).dropLast) := by
  have hPGne : split_into_lyric_groups prev.1 prev.2 ≠ [] := by
    intro hx
    rw [hx] at h2
    simp at h2
  obtain ⟨g0, gs, hPGeq⟩ := List.exists_cons_of_ne_nil hPGne
  have hgs_ne : gs ≠ [] := by
    intro hx
    rw [hx] at hPGeq
    rw [hPGeq] at h2
    simp at h2
  have hdropeq : (split_into_lyric_groups prev.1 prev.2).dropLast
      = g0 :: gs.dropLast := by
    rw [hPGeq]
    obtain ⟨g1, gs', rfl⟩ := List.exists_cons_of_ne_nil hgs_ne
    simp
  have hg0_mem : g0 ∈ split_into_lyric_groups prev.1 prev.2 := by
    rw [hPGeq]
    simp
  have hg0_good := groups_good prev.1 prev.2 g0 hg0_mem
  have hg0_true := split_into_all_true prev.1 prev.2 h.1 h.2.2 g0 hg0_mem
  have hg0_f_ne : g0.2 ≠ [] := by
    intro hx
    rw [hx] at hg0_true
    simp at hg0_true
  rw [hdropeq]
  refine ⟨join_groups_fst_ne_nil g0 _ hg0_good.1, ?_, ?_⟩
  · refine join_groups_len _ ?_
    intro g hg
    refine (groups_good prev.1 prev.2 g ?_).2.1
    rw [← hdropeq] at hg
    exact List.mem_of_mem_dropLast hg
  · rw [join_groups_head g0 _ hg0_f_ne]
    exact hg0_true

theorem newCur_WF (prev cur : Page) (hp : PageWF prev)
    (hne : split_into_lyric_groups prev.1 prev.2 ≠ []) :
    PageWF (join_lyric_groups ((split_into_lyric_groups prev.1 prev.2).getLastD ([], [])
      :: split_into_lyric_groups cur.1 cur.2)) := by
  have hmoved_mem := getLastD_mem (split_into_lyric_groups prev.1 prev.2) (([], [])) hne
  have hmoved_good := groups_good prev.1 prev.2 _ hmoved_mem
  have hmoved_true := split_into_all_true prev.1 prev.2 hp.1 hp.2.2 _ hmoved_mem
  have hmoved_f_ne :
      ((split_into_lyric_groups prev.1 prev.2).getLastD ([], [])).2 ≠ [] := by
    intro hx
    rw [hx] at hmoved_true
    simp at hmoved_true
  refine ⟨join_groups_fst_ne_nil _ _ hmoved_good.1, ?_, ?_⟩
  · refine join_groups_len _ ?_
    intro g hg
    rcases List.mem_cons.mp hg with rfl | hg
    · exact hmoved_good.2.1
    · exact (groups_good cur.1 cur.2 g hg).2.1
  · rw [join_groups_head _ _ hmoved_f_ne]
    exact hmoved_true

theorem page_flags_ne_nil (pg : Page) (h : PageWF pg) : pg.2 ≠ [] := by
  intro hx
  have := h.2.1
  rw [hx] at this
  exact h.1 (List.length_eq_zero.mp (by simpa using this))

theorem rebalanceLoop_chain :
    ∀ (l : List Page) (prev : Page), PageWF prev → (∀ p ∈ l, PageWF p) →
      List.Chain' (chainCond 2 2) (rebalanceLoop 2 2 prev l)
  | [], prev, _, _ => by
    rw [rebalanceLoop]
    exact List.chain'_singleton prev
  | cur :: rest, prev, hprev, hl => by
    have hcWF := hl cur (by simp)
    rw [rebalanceLoop]
    split
    · next hskip =>
      have ihch := rebalanceLoop_chain rest cur hcWF (fun p hp => hl p (by simp [hp]))
      rw [List.chain'_cons']
      refine ⟨?_, ihch⟩
      intro y hy
      rcases rebalanceLoop_head 2 2 cur rest with ⟨t, ht⟩ | ⟨⟨t, ht⟩, hgt⟩
      · rw [ht] at hy
        simp only [List.head?_cons, Option.mem_def, Option.some.injEq] at hy
        subst hy
        exact hskip
      · rw [ht] at hy
        simp only [List.head?_cons, Option.mem_def, Option.some.injEq] at hy
        subst hy
        left
        rw [groups_newPrev cur hcWF]
        rw [List.length_dropLast]
        omega
    · next hmove =>
      push_neg at hmove
      obtain ⟨hclt, hpgt⟩ := hmove
      have hPGne : split_into_lyric_groups prev.1 prev.2 ≠ [] := by
        intro hx
        rw [hx] at hpgt
        simp at hpgt
      have hNewCur := newCur_WF prev cur hprev hPGne
      have ihch := rebalanceLoop_chain rest _ hNewCur (fun p hp => hl p (by simp [hp]))
      rw [List.chain'_cons']
      refine ⟨?_, ihch⟩
      intro y hy
      have hgNewCur := groups_newCur prev cur hcWF hPGne
      have hcg_ne : split_into_lyric_groups cur.1 cur.2 ≠ [] :=
        split_into_ne_nil cur.1 cur.2 hcWF.1 (page_flags_ne_nil cur hcWF)
      have hlen1 : (split_into_lyric_groups cur.1 cur.2).length = 1 := by
        have := List.length_pos.mpr hcg_ne
        omega
      rcases rebalanceLoop_head 2 2
          (join_lyric_groups ((split_into_lyric_groups prev.1 prev.2).getLastD ([], [])
            :: split_into_lyric_groups cur.1 cur.2)) rest with ⟨t, ht⟩ | ⟨⟨t, ht⟩, hgt⟩
      · rw [ht] at hy
        simp only [List.head?_cons, Option.mem_def, Option.some.injEq] at hy
        subst hy
        left
        rw [hgNewCur]
        simp [hlen1]
      · exfalso
        rw [hgNewCur] at hgt
        simp [hlen1] at hgt

theorem rebalance_idem_helper (packed : List Page) (h : ∀ p ∈ packed, PageWF p) :
    rebalance_single_lyric_slides (rebalance_single_lyric_slides packed 2 2) 2 2
      = rebalance_single_lyric_slides packed 2 2 := by
  match packed with
  | [] => rfl
  | [p] => rfl
  | p :: q :: rest =>
    have hred : rebalance_single_lyric_slides (p :: q :: rest) 2 2
        = rebalanceLoop 2 2 p (q :: rest) := rfl
    rw [hred]
    have hch := rebalanceLoop_chain (q :: rest) p (h p (by simp))
      (fun r hr => h r (by simp [hr]))
    obtain ⟨o, t, hOt⟩ : ∃ o t, rebalanceLoop 2 2 p (q :: rest) = o :: t := by
      rcases rebalanceLoop_head 2 2 p (q :: rest) with ⟨t, ht⟩ | ⟨⟨t, ht⟩, _⟩
      · exact ⟨_, _, ht⟩
      · exact ⟨_, _, ht⟩
    rw [hOt] at hch ⊢
    cases t with
    | nil => rfl
    | cons t0 t' =>
      have hred2 : rebalance_single_lyric_slides (o :: t0 :: t') 2 2
          = rebalanceLoop 2 2 o (t0 :: t') := rfl
      rw [hred2]
      exact rebalanceLoop_id 2 2 (t0 :: t') o hch

theorem chunk_height_le (lineH budget : ℚ) (hl : 0 < lineH) (hb : lineH ≤ budget)
    (k : Nat) (hk : k ≤ max 1 (Int.toNat ⌊budget / max lineH 1⌋)) :
    lineH * k ≤ budget := by
  by_cases h1 : lineH ≤ 1
  · rw [max_eq_right h1] at hk
    rcases le_or_lt (⌊budget / 1⌋ : ℤ) 0 with h2 | h2
    · have ht : Int.toNat ⌊budget / 1⌋ = 0 := Int.toNat_of_nonpos h2
      rw [ht] at hk
      have hk1 : k ≤ 1 := by simpa using hk
      have hkq : (k : ℚ) ≤ 1 := by exact_mod_cast hk1
      nlinarith
    · have hmax : max 1 (Int.toNat ⌊budget / 1⌋) = Int.toNat ⌊budget / 1⌋ := by
        apply max_eq_right
        omega
      rw [hmax] at hk
      have hk' : (k : ℤ) ≤ ⌊budget / 1⌋ := by omega
      have hkq : (k : ℚ) ≤ budget := by
        calc (k : ℚ) ≤ ((⌊budget / 1⌋ : ℤ) : ℚ) := by exact_mod_cast hk'
          _ ≤ budget / 1 := Int.floor_le _
          _ = budget := by ring
      have hk0 : (0 : ℚ) ≤ (k : ℚ) := by positivity
      nlinarith
  · push_neg at h1
    rw [max_eq_left h1.le] at hk
    have hfpos : (1 : ℤ) ≤ ⌊budget / lineH⌋ := by
      rw [Int.le_floor]
      rw [le_div_iff₀ hl]
      simpa using hb
    have hmax : max 1 (Int.toNat ⌊budget / lineH⌋) = Int.toNat ⌊budget / lineH⌋ := by
      apply max_eq_right
      omega
    rw [hmax] at hk
    have hk' : (k : ℤ) ≤ ⌊budget / lineH⌋ := by omega
    have hkq : (k : ℚ) ≤ budget / lineH := by
      calc (k : ℚ) ≤ ((⌊budget / lineH⌋ : ℤ) : ℚ) := by exact_mod_cast hk'
        _ ≤ budget / lineH := Int.floor_le _
    calc lineH * k ≤ lineH * (budget / lineH) := mul_le_mul_of_nonneg_left hkq hl.le
      _ = budget := by field_simp

theorem usedHeight_chunk (lineH gap : ℚ) (c : List Str) :
    usedHeight lineH gap (c, true :: List.replicate (c.length - 1) false)
      = lineH * c.length := by
  unfold usedHeight
  simp [List.count_cons, List.count_replicate]

/-- Invariant of the packing loop: the accumulators mirror each other, the
open slide is within budget, and every committed slide is well-formed and
within budget. -/
def PackInv (lineH gap budget : ℚ) (st : PackState) : Prop :=
  (st.curLines = [] → st.curFlags = [] ∧ st.usedH = 0) ∧
  (st.curLines ≠ [] →
    st.curLines.length = st.curFlags.length ∧
    st.curFlags.head? = some true ∧
    st.usedH = lineH * st.curLines.length
      + gap * ((st.curFlags.count true - 1 : Nat) : ℚ) ∧
    st.usedH ≤ budget) ∧
  (∀ pg ∈ st.slides, PageWF pg ∧ usedHeight lineH gap pg ≤ budget)

theorem packStep_inv (μ : Str → ℚ) (boxW lineH gap budget : ℚ)
    (hlh : 0 < lineH) (hb : lineH ≤ budget)
    (st : PackState) (lyric : Str) (h : PackInv lineH gap budget st) :
    PackInv lineH gap budget (packStep μ boxW lineH gap budget st lyric) := by
  obtain ⟨hinv0, hinv1, hinv2⟩ := h
  have hmax_ne : max 1 (Int.toNat ⌊budget / max lineH 1⌋) ≠ 0 := by omega
  have hchunk : ∀ pg ∈ (chunkList (max 1 (Int.toNat ⌊budget / max lineH 1⌋))
      (wrap_one_lyric_line_by_width μ lyric boxW)).map
        (fun c => (c, true :: List.replicate (c.length - 1) false)),
      PageWF pg ∧ usedHeight lineH gap pg ≤ budget := by
    intro pg hpg
    rw [List.mem_map] at hpg
    obtain ⟨c, hc, rfl⟩ := hpg
    have hcm := chunkList_mem _ hmax_ne _ c hc
    have hc1 : 1 ≤ c.length := List.length_pos.mpr hcm.1
    refine ⟨⟨hcm.1, by simp; omega, by simp⟩, ?_⟩
    rw [usedHeight_chunk]
    exact chunk_height_le lineH budget hlh hb c.length hcm.2
  simp only [packStep]
  split
  · exact ⟨hinv0, hinv1, hinv2⟩
  · next hw =>
    have hwlen : 1 ≤ (wrap_one_lyric_line_by_width μ lyric boxW).length :=
      List.length_pos.mpr hw
    have hmkflags : ∀ m : Nat, 1 ≤ m →
        ((true :: List.replicate (m - 1) false).count true - 1 : Nat) = 0 := by
      intro m _
      simp [List.count_cons, List.count_replicate]
    split
    · next hcur =>
      have hflush := hinv1 hcur
      have hflushWF : PageWF (st.curLines, st.curFlags) ∧
          usedHeight lineH gap (st.curLines, st.curFlags) ≤ budget := by
        refine ⟨⟨hcur, hflush.1, hflush.2.1⟩, ?_⟩
        unfold usedHeight
        simp only
        rw [← hflush.2.2.1]
        exact hflush.2.2.2
      split
      · next hA =>
        split
        · next hB =>
          refine ⟨by simp, by simp, ?_⟩
          intro pg hpg
          simp only [List.append_assoc, List.mem_append, List.mem_singleton] at hpg
          rcases hpg with hpg | hpg | hpg
          · exact hinv2 pg hpg
          · subst hpg
            exact hflushWF
          · exact hchunk pg hpg
        · next hB =>
          push_neg at hB
          refine ⟨by simp [hw], ?_, ?_⟩
          · intro _
            refine ⟨by simp; omega, by simp, ?_, ?_⟩
            · simp only
              rw [hmkflags _ hwlen]
              push_cast
              ring
            · simp only
              exact hB
          · intro pg hpg
            simp only [List.mem_append, List.mem_singleton] at hpg
            rcases hpg with hpg | hpg
            · exact hinv2 pg hpg
            · subst hpg
              exact hflushWF
      · next hA =>
        split
        · next hC => exact absurd hC.1 hcur
        · next hC =>
          push_neg at hA
          have hAle := hA hcur
          refine ⟨by simp [hcur], ?_, by simpa using hinv2⟩
          intro _
          have hfne : st.curFlags ≠ [] := by
            intro hx
            have := hflush.1
            rw [hx] at this
            exact hcur (List.length_eq_zero.mp (by simpa using this))
          have hcount1 : 1 ≤ st.curFlags.count true := by
            obtain ⟨b0, bs, hbs⟩ := List.exists_cons_of_ne_nil hfne
            have hb0 : b0 = true := by
              have := hflush.2.1
              rw [hbs] at this
              simpa using this
            rw [hbs, hb0]
            simp [List.count_cons]
          refine ⟨by simp [hflush.1]; omega, ?_, ?_, ?_⟩
          · obtain ⟨b0, bs, hbs⟩ := List.exists_cons_of_ne_nil hfne
            rw [hbs]
            rw [hbs] at hflush
            simpa using hflush.2.1
          · simp only [List.length_append, List.count_append]
            rw [hflush.2.2.1]
            rw [show (st.curFlags.count true +
                (true :: List.replicate
                  ((wrap_one_lyric_line_by_width μ lyric boxW).length - 1)
                    false).count true - 1 : Nat)
              = (st.curFlags.count true - 1) + 1 by
                simp [List.count_cons, List.count_replicate]
                omega]
            push_cast [Nat.cast_sub hcount1]
            ring
          · simp only
            exact hAle
    · next hcur =>
      push_neg at hcur
      have h0 := hinv0 hcur
      split
      · next hA => exact absurd hA.1 (by simp [hcur])
      · next hC =>
        split
        · next hC2 =>
          refine ⟨by simp, by simp, ?_⟩
          intro pg hpg
          simp only [List.mem_append] at hpg
          rcases hpg with hpg | hpg
          · exact hinv2 pg hpg
          · exact hchunk pg hpg
        · next hC2 =>
          push_neg at hC2
          have hC2le := hC2 (by simp [hcur])
          refine ⟨by simp [hw, hcur], ?_, by simpa using hinv2⟩
          intro _
          rw [hcur, h0.1, h0.2]
          refine ⟨by simp; omega, by simp, ?_, ?_⟩
          · simp only [List.nil_append, List.length_nil]
            rw [hmkflags _ hwlen]
            push_cast
            ring
          · simp only [List.length_nil]
            calc (0 : ℚ) + (0 + (wrap_one_lyric_line_by_width μ lyric boxW).length * lineH)
                ≤ budget := by simpa using hC2le

/-- Structural part of the packing invariant, independent of any height
hypotheses. -/
def PackWF (st : PackState) : Prop :=
  (st.curLines = [] → st.curFlags = []) ∧
  (st.curLines ≠ [] →
    st.curLines.length = st.curFlags.length ∧ st.curFlags.head? = some true) ∧
  (∀ pg ∈ st.slides, PageWF pg)

theorem packStep_wf (μ : Str → ℚ) (boxW lineH gap budget : ℚ)
    (st : PackState) (lyric : Str) (h : PackWF st) :
    PackWF (packStep μ boxW lineH gap budget st lyric) := by
  obtain ⟨hinv0, hinv1, hinv2⟩ := h
  have hmax_ne : max 1 (Int.toNat ⌊budget / max lineH 1⌋) ≠ 0 := by omega
  have hchunk : ∀ pg ∈ (chunkList (max 1 (Int.toNat ⌊budget / max lineH 1⌋))
      (wrap_one_lyric_line_by_width μ lyric boxW)).map
        (fun c => (c, true :: List.replicate (c.length - 1) false)),
      PageWF pg := by
    intro pg hpg
    rw [List.mem_map] at hpg
    obtain ⟨c, hc, rfl⟩ := hpg
    have hcm := chunkList_mem _ hmax_ne _ c hc
    have hc1 : 1 ≤ c.length := List.length_pos.mpr hcm.1
    exact ⟨hcm.1, by simp; omega, by simp⟩
  simp only [packStep]
  split
  · exact ⟨hinv0, hinv1, hinv2⟩
  · next hw =>
    have hwlen : 1 ≤ (wrap_one_lyric_line_by_width μ lyric boxW).length :=
      List.length_pos.mpr hw
    split
    · next hcur =>
      have hflush := hinv1 hcur
      have hflushWF : PageWF (st.curLines, st.curFlags) :=
        ⟨hcur, hflush.1, hflush.2⟩
      split
      · next hA =>
        split
        · next hB =>
          refine ⟨by simp, by simp, ?_⟩
          intro pg hpg
          simp only [List.append_assoc, List.mem_append, List.mem_singleton] at hpg
          rcases hpg with hpg | hpg | hpg
          · exact hinv2 pg hpg
          · subst hpg
            exact hflushWF
          · exact hchunk pg hpg
        · next hB =>
          refine ⟨by simp [hw], ?_, ?_⟩
          · intro _
            exact ⟨by simp; omega, by simp⟩
          · intro pg hpg
            simp only [List.mem_append, List.mem_singleton] at hpg
            rcases hpg with hpg | hpg
            · exact hinv2 pg hpg
            · subst hpg
              exact hflushWF
      · next hA =>
        split
        · next hC => exact absurd hC.1 hcur
        · next hC =>
          refine ⟨by simp [hcur], ?_, by simpa using hinv2⟩
          intro _
          have hfne : st.curFlags ≠ [] := by
            intro hx
            have := hflush.1
            rw [hx] at this
            exact hcur (List.length_eq_zero.mp (by simpa using this))
          refine ⟨by simp [hflush.1]; omega, ?_⟩
          obtain ⟨b0, bs, hbs⟩ := List.exists_cons_of_ne_nil hfne
          rw [hbs]
          rw [hbs] at hflush
          simpa using hflush.2
    · next hcur =>
      push_neg at hcur
      have h0 := hinv0 hcur
      split
      · next hA => exact absurd hA.1 (by simp [hcur])
      · split
        · next hC2 =>
          refine ⟨by simp, by simp, ?_⟩
          intro pg hpg
          simp only [List.mem_append] at hpg
          rcases hpg with hpg | hpg
          · exact hinv2 pg hpg
          · exact hchunk pg hpg
        · next hC2 =>
          refine ⟨by simp [hw, hcur], ?_, by simpa using hinv2⟩
          intro _
          rw [hcur, h0]
          exact ⟨by simp; omega, by simp⟩

theorem foldl_packInv (μ : Str → ℚ) (boxW lineH gap budget : ℚ)
    (hlh : 0 < lineH) (hb : lineH ≤ budget) :
    ∀ (ls : List Str) (st : PackState), PackInv lineH gap budget st →
      PackInv lineH gap budget (ls.foldl (packStep μ boxW lineH gap budget) st)
  | [], _, h => h
  | l :: ls, st, h =>
    foldl_packInv μ boxW lineH gap budget hlh hb ls _
      (packStep_inv μ boxW lineH gap budget hlh hb st l h)

theorem foldl_packWF (μ : Str → ℚ) (boxW lineH gap budget : ℚ) :
    ∀ (ls : List Str) (st : PackState), PackWF st →
      PackWF (ls.foldl (packStep μ boxW lineH gap budget) st)
  | [], _, h => h
  | l :: ls, st, h =>
    foldl_packWF μ boxW lineH gap budget ls _
      (packStep_wf μ boxW lineH gap budget st l h)

theorem pack_pages_wf (μ : Str → ℚ) (lyricLines : List Str)
    (boxW boxH lineH gapEm : ℚ) :
    ∀ pg ∈ pack_lyrics_into_slides_by_height μ lyricLines boxW boxH lineH gapEm,
      PageWF pg := by
  intro pg hpg
  unfold pack_lyrics_into_slides_by_height at hpg
  have hinv := foldl_packWF μ boxW lineH (max 0 (lineH * gapEm)) (boxH * (98 / 100))
    lyricLines ⟨[], [], [], 0⟩ ⟨by simp, by simp, by simp⟩
  simp only [List.mem_append] at hpg
  rcases hpg with hpg | hpg
  · exact hinv.2.2 pg hpg
  · split at hpg
    · next hcur =>
      simp only [List.mem_singleton] at hpg
      subst hpg
      exact ⟨hcur, (hinv.2.1 hcur).1, (hinv.2.1 hcur).2⟩
    · simp at hpg

theorem pack_pages_height (μ : Str → ℚ) (lyricLines : List Str)
    (boxW boxH lineH gapEm : ℚ)
    (hlh : 0 < lineH) (hb : lineH ≤ boxH * (98 / 100)) :
    ∀ pg ∈ pack_lyrics_into_slides_by_height μ lyricLines boxW boxH lineH gapEm,
      usedHeight lineH (max 0 (lineH * gapEm)) pg ≤ boxH * (98 / 100) := by
  intro pg hpg
  unfold pack_lyrics_into_slides_by_height at hpg
  have hinv := foldl_packInv μ boxW lineH (max 0 (lineH * gapEm)) (boxH * (98 / 100))
    hlh hb lyricLines ⟨[], [], [], 0⟩ ⟨by simp, by simp, by simp⟩
  simp only [List.mem_append] at hpg
  rcases hpg with hpg | hpg
  · exact (hinv.2.2 pg hpg).2
  · split at hpg
    · next hcur =>
      simp only [List.mem_singleton] at hpg
      subst hpg
      have hcp := hinv.2.1 hcur
      unfold usedHeight
      simp only
      rw [← hcp.2.2.1]
      exact hcp.2.2.2
    · simp at hpg

theorem packFold_lines (μ : Str → ℚ) (boxW lineH gap budget : ℚ) :
    ∀ (ls : List Str) (st : PackState),
      (ls.foldl (packStep μ boxW lineH gap budget) st).slides.flatMap Prod.fst ++
          (ls.foldl (packStep μ boxW lineH gap budget) st).curLines
        = st.slides.flatMap Prod.fst ++ st.curLines ++
            ls.flatMap (fun l => wrap_one_lyric_line_by_width μ l boxW)
  | [], st => by simp
  | l :: ls, st => by
    simp only [List.foldl_cons, List.flatMap_cons]
    rw [packFold_lines μ boxW lineH gap budget ls (packStep μ boxW lineH gap budget st l)]
    rw [packStep_lines]
    simp [List.append_assoc]

theorem pack_lines (μ : Str → ℚ) (lyricLines : List Str)
    (boxW boxH lineH gapEm : ℚ) :
    (pack_lyrics_into_slides_by_height μ lyricLines boxW boxH lineH gapEm).flatMap
        Prod.fst
      = lyricLines.flatMap (fun l => wrap_one_lyric_line_by_width μ l boxW) := by
  unfold pack_lyrics_into_slides_by_height
  have hf := packFold_lines μ boxW lineH (max 0 (lineH * gapEm)) (boxH * (98 / 100))
    lyricLines ⟨[], [], [], 0⟩
  simp only [List.flatMap_nil, List.nil_append] at hf
  rw [List.flatMap_append]
  split
  · next hcur =>
    simp only [List.flatMap_cons, List.flatMap_nil, List.append_nil]
    exact hf
  · next hcur =>
    push_neg at hcur
    simp only [List.flatMap_nil, List.append_nil]
    rw [← hf, hcur]
    simp

theorem pagesWords_eq (pages : List Page) :
    pagesWords pages = (pages.flatMap Prod.fst).flatMap pyWords := by
  induction pages with
  | nil => rfl
  | cons p ps ih =>
    simp only [pagesWords, List.flatMap_cons, List.flatMap_append] at *
    rw [ih]

theorem flatMap_flatMap {α β γ : Type} (ls : List α) (f : α → List β) (g : β → List γ) :
    (ls.flatMap f).flatMap g = ls.flatMap (fun x => (f x).flatMap g) := by
  induction ls with
  | nil => rfl
  | cons a l ih => simp only [List.flatMap_cons, List.flatMap_append, ih]

theorem pipeline_words_helper (μ : Str → ℚ) (lyricLines : List Str)
    (boxW boxH lineH gapEm : ℚ) :
    pagesWords (rebalance_single_lyric_slides
        (pack_lyrics_into_slides_by_height μ lyricLines boxW boxH lineH gapEm) 2 2)
      = lyricLines.flatMap pyWords := by
  rw [pagesWords_eq]
  rw [(rebalance_master _ 2 2 (by omega)
    (pack_pages_wf μ lyricLines boxW boxH lineH gapEm)).2]
  rw [pack_lines]
  rw [flatMap_flatMap]
  have hfun : (fun l => (wrap_one_lyric_line_by_width μ l boxW).flatMap pyWords)
      = fun l => pyWords l := by
    funext l
    exact wrap_one_lyric_line_words μ l boxW
  rw [hfun]

theorem spaceFree_ne_space {w : Str} (h : SpaceFree w) : ∀ c ∈ w, c ≠ ' ' := by
  intro c hc he
  have := h c hc
  rw [he] at this
  simp [isSpace] at this

theorem splitOnCharAux_no_sep {sep : Char} :
    ∀ (w cur : Str), (∀ c ∈ w, c ≠ sep) →
      splitOnCharAux sep cur w = [cur.reverse ++ w]
  | [], cur, _ => by simp [splitOnCharAux]
  | c :: cs, cur, h => by
    have hc : c ≠ sep := h c (by simp)
    rw [splitOnCharAux, if_neg hc]
    rw [splitOnCharAux_no_sep cs (c :: cur) (fun d hd => h d (by simp [hd]))]
    simp

theorem splitOnCharAux_sep_append {sep : Char} :
    ∀ (w cur rest : Str), (∀ c ∈ w, c ≠ sep) →
      splitOnCharAux sep cur (w ++ sep :: rest)
        = (cur.reverse ++ w) :: splitOnCharAux sep [] rest
  | [], cur, rest, _ => by simp [splitOnCharAux]
  | c :: cs, cur, rest, h => by
    have hc : c ≠ sep := h c (by simp)
    rw [List.cons_append, splitOnCharAux, if_neg hc]
    rw [splitOnCharAux_sep_append cs (c :: cur) rest (fun d hd => h d (by simp [hd]))]
    simp

theorem splitOnChar_joinWords :
    ∀ (ws : List Str), (∀ w ∈ ws, SpaceFree w) → ws ≠ [] →
      splitOnChar ' ' (joinWords ws) = ws
  | [w], h, _ => by
    rw [joinWords_single, splitOnChar]
    rw [splitOnCharAux_no_sep w [] (spaceFree_ne_space (h w (by simp)))]
    simp
  | w :: x :: ws, h, _ => by
    rw [joinWords_cons w (x :: ws) (by simp), splitOnChar]
    rw [splitOnCharAux_sep_append w [] _ (spaceFree_ne_space (h w (by simp)))]
    rw [show splitOnCharAux ' ' [] (joinWords (x :: ws))
        = splitOnChar ' ' (joinWords (x :: ws)) from rfl]
    rw [splitOnChar_joinWords (x :: ws) (fun u hu => h u (by simp [hu])) (by simp)]
    simp

theorem intercalate_cons₂ {α : Type} (sep : List α) (x y : List α) (zs : List (List α)) :
    List.intercalate sep (x :: y :: zs) = x ++ sep ++ List.intercalate sep (y :: zs) := by
  simp [List.intercalate]

theorem pyWords_intercalate_nl :
    ∀ (parts : List Str),
      pyWords (List.intercalate ['\n'] parts) = parts.flatMap pyWords
  | [] => rfl
  | [p] => by simp [List.intercalate]
  | p :: q :: rest => by
    rw [intercalate_cons₂]
    rw [show p ++ ['\n'] ++ List.intercalate ['\n'] (q :: rest)
        = p ++ '\n' :: List.intercalate ['\n'] (q :: rest) by simp]
    unfold pyWords
    rw [pyWordsAux_append_space (c := '\n') (by decide) p [] _]
    rw [show pyWordsAux [] (List.intercalate ['\n'] (q :: rest))
        = pyWords (List.intercalate ['\n'] (q :: rest)) from rfl]
    rw [pyWords_intercalate_nl (q :: rest)]
    simp only [List.flatMap_cons]
    rfl

theorem pyNormalize_nil_iff (t : Str) : pyNormalize t = [] ↔ pyWords t = [] := by
  constructor
  · intro h
    exact pyWords_nil_of_joinWords_nil (fun w hw => (pyWords_words w hw).1) h
  · intro h
    rw [pyNormalize, h, joinWords_nil]

theorem splitOnChar_normalize (t : Str) (h : pyWords t ≠ []) :
    splitOnChar ' ' (pyNormalize t) = pyWords t :=
  splitOnChar_joinWords (pyWords t) (fun w hw => (pyWords_words w hw).2) h

theorem wtl_fold_le (maxC : Nat) (W : List Str) :
    ∀ (ws : List Str) (st : List Str × Str),
      (∀ w ∈ ws, w ∈ W) →
      (∀ l ∈ st.1, l.length ≤ maxC ∨ l ∈ W) →
      (st.2 = [] ∨ st.2.length ≤ maxC ∨ st.2 ∈ W) →
      (∀ l ∈ (ws.foldl (wtlStep maxC) st).1, l.length ≤ maxC ∨ l ∈ W) ∧
        ((ws.foldl (wtlStep maxC) st).2 = [] ∨
          (ws.foldl (wtlStep maxC) st).2.length ≤ maxC ∨
          (ws.foldl (wtlStep maxC) st).2 ∈ W)
  | [], _, _, h1, h2 => ⟨h1, h2⟩
  | w :: ws, st, hW, h1, h2 => by
    rw [List.foldl_cons]
    apply wtl_fold_le maxC W ws _ (fun u hu => hW u (by simp [hu]))
    · intro l hl
      simp only [wtlStep] at hl
      split at hl
      · exact h1 l hl
      · split at hl
        · next hcur =>
          split at hl
          · exact h1 l hl
          · rcases List.mem_append.mp hl with h | h
            · exact h1 l h
            · simp at h
              subst h
              rcases h2 with h2 | h2
              · exact absurd h2 hcur
              · exact h2
        · split at hl
          · exact h1 l hl
          · exact h1 l hl
    · simp only [wtlStep]
      split
      · exact h2
      · split
        · split
          · next hfit =>
            right
            left
            exact hfit
          · right
            by_cases hlen : w.length ≤ maxC
            · left
              exact hlen
            · right
              exact hW w (by simp)
        · split
          · next hfit =>
            right
            left
            exact hfit
          · next hfit =>
            right
            right
            exact hW w (by simp)

theorem pyWords_nil : pyWords [] = [] := rfl

theorem wtl_fold_words (maxC : Nat) :
    ∀ (ws : List Str) (st : List Str × Str),
      (∀ w ∈ ws, w ≠ [] ∧ SpaceFree w) →
      ((ws.foldl (wtlStep maxC) st).1.flatMap pyWords
          ++ pyWords (ws.foldl (wtlStep maxC) st).2)
        = (st.1.flatMap pyWords ++ pyWords st.2) ++ ws
  | [], _, _ => by simp
  | w :: ws, st, hW => by
    have hw := hW w (by simp)
    have hwords : pyWords w = [w] := pyWords_word hw.1 hw.2
    rw [List.foldl_cons]
    rw [wtl_fold_words maxC ws (wtlStep maxC st w) (fun u hu => hW u (by simp [hu]))]
    have hstep : (wtlStep maxC st w).1.flatMap pyWords ++ pyWords (wtlStep maxC st w).2
        = (st.1.flatMap pyWords ++ pyWords st.2) ++ [w] := by
      simp only [wtlStep]
      split
      · next he =>
        exact absurd he hw.1
      · split
        · next hcur =>
          have hcand : pyWords (pyStrip (st.2 ++ ' ' :: w))
              = pyWords st.2 ++ [w] := by
            rw [pyWords_strip]
            rw [show pyWords (st.2 ++ ' ' :: w)
                = pyWordsAux [] (st.2 ++ ' ' :: w) from rfl]
            rw [pyWordsAux_append_space (c := ' ') (by decide) st.2 [] w]
            rw [show pyWordsAux [] w = pyWords w from rfl, hwords]
            rfl
          split
          · simp [hcand]
          · simp [hwords]
        · next hcur =>
          push_neg at hcur
          split
          · simp [hcur, hwords, pyWords_nil]
          · simp [hcur, hwords, pyWords_nil]
    rw [hstep]
    simp

theorem wrapTextLines_words (t : Str) (maxC : Nat) :
    (wrapTextLines t maxC).flatMap pyWords = pyWords t := by
  simp only [wrapTextLines]
  by_cases ht : pyNormalize t = []
  · rw [if_pos ht, (pyNormalize_nil_iff t).mp ht]
    rfl
  · rw [if_neg ht]
    have hwne : pyWords t ≠ [] := fun h => ht ((pyNormalize_nil_iff t).mpr h)
    rw [splitOnChar_normalize t hwne]
    have hmain := wtl_fold_words maxC (pyWords t) ([], [])
      (fun w hw => pyWords_words w hw)
    simp only [List.flatMap_nil, List.nil_append] at hmain
    split
    · next hcur =>
      rw [List.flatMap_append]
      simp only [List.flatMap_cons, List.flatMap_nil, List.append_nil]
      rw [hmain]
      rfl
    · next hcur =>
      push_neg at hcur
      rw [hcur] at hmain
      simpa [pyWords_nil] using hmain

theorem wtl_words (t : Str) (maxC : Nat) :
    pyWords (wrap_text_to_lines t maxC) = pyWords t := by
  unfold wrap_text_to_lines
  rw [pyWords_intercalate_nl]
  exact wrapTextLines_words t maxC

theorem wrapTextLines_le (t : Str) (maxC : Nat) :
    ∀ l ∈ wrapTextLines t maxC, l.length ≤ maxC ∨ l ∈ pyWords t := by
  simp only [wrapTextLines]
  by_cases ht : pyNormalize t = []
  · rw [if_pos ht]
    intro l hl
    simp at hl
  · rw [if_neg ht]
    have hwne : pyWords t ≠ [] := fun h => ht ((pyNormalize_nil_iff t).mpr h)
    rw [splitOnChar_normalize t hwne]
    have hmain := wtl_fold_le maxC (pyWords t) (pyWords t) ([], [])
      (fun w hw => hw) (by simp) (Or.inl rfl)
    intro l hl
    split at hl
    · next hcur =>
      rcases List.mem_append.mp hl with h | h
      · exact hmain.1 l h
      · simp at h
        subst h
        rcases hmain.2 with h | h
        · exact absurd h hcur
        · exact h
    · exact hmain.1 l hl

theorem findCloseAux_exact (post : Str) :
    ∀ (inner : Str) (i : Nat), ']' ∉ inner → '\n' ∉ inner → 1 ≤ i + inner.length →
      findCloseAux (inner ++ ']' :: post) i = some (i + inner.length)
  | [], i, _, _, hi => by
    rw [List.nil_append, findCloseAux,
      if_pos (⟨rfl, by simpa using hi⟩ : ']' = ']' ∧ 1 ≤ i)]
    simp
  | c :: cs, i, hb, hn, _ => by
    have hcb : c ≠ ']' := fun h => hb (by simp [h])
    have hcn : c ≠ '\n' := fun h => hn (by simp [h])
    rw [List.cons_append, findCloseAux]
    rw [if_neg (fun h => hcb h.1), if_neg hcn]
    rw [findCloseAux_exact post cs (i + 1) (fun h => hb (by simp [h]))
      (fun h => hn (by simp [h])) (by omega)]
    congr 1
    simp only [List.length_cons]
    omega

theorem protectScan_nil : protectScan [] = [] := by
  rw [protectScan]

theorem protectScan_cons_not_open (c : Char) (cs : Str) (hc : c ≠ '[') :
    protectScan (c :: cs) = c :: protectScan cs := by
  rw [protectScan]
  simp [hc]

theorem protectScan_cons_open_found (cs : Str) (j : Nat)
    (hf : findCloseAux cs 0 = some j) :
    protectScan ('[' :: cs)
      = '[' :: (protectInner (cs.take j) ++ ']' :: protectScan (cs.drop (j + 1))) := by
  rw [protectScan]
  simp [hf]

theorem protectScan_copyFront :
    ∀ (pre : Str), '[' ∉ pre → ∀ (s : Str), protectScan (pre ++ s) = pre ++ protectScan s
  | [], _, s => by simp
  | c :: cs, h, s => by
    have hc : c ≠ '[' := fun hh => h (by simp [hh])
    rw [List.cons_append, protectScan_cons_not_open c _ hc]
    rw [protectScan_copyFront cs (fun hh => h (by simp [hh])) s]
    simp

theorem protectScan_span (pre inner post : Str)
    (hpre : '[' ∉ pre) (hne : inner ≠ []) (hbr : ']' ∉ inner) (hnl : '\n' ∉ inner) :
    protectScan (pre ++ '[' :: inner ++ ']' :: post)
      = pre ++ '[' :: (protectInner inner ++ ']' :: protectScan post) := by
  rw [show pre ++ '[' :: inner ++ ']' :: post
      = pre ++ ('[' :: (inner ++ ']' :: post)) by simp]
  rw [protectScan_copyFront pre hpre]
  congr 1
  have hlen : 1 ≤ inner.length := by
    cases inner with
    | nil => exact absurd rfl hne
    | cons a l => simp
  have hf : findCloseAux (inner ++ ']' :: post) 0 = some inner.length := by
    have := findCloseAux_exact post inner 0 hbr hnl (by omega)
    simpa using this
  rw [protectScan_cons_open_found _ inner.length hf]
  have ht : (inner ++ ']' :: post).take inner.length = inner :=
    List.take_left inner (']' :: post)
  have hd : (inner ++ ']' :: post).drop (inner.length + 1) = post := by
    rw [show inner ++ ']' :: post = (inner ++ [']']) ++ post by simp]
    rw [show inner.length + 1 = (inner ++ [']']).length by simp]
    exact List.drop_left (inner ++ [']']) post
  rw [ht, hd]

theorem joinWords_chars :
    ∀ (ws : List Str), (∀ w ∈ ws, SpaceFree w) →
      ∀ c ∈ joinWords ws, c = ' ' ∨ isSpace c = false
  | [], _, c, hc => by
    rw [joinWords_nil] at hc
    simp at hc
  | [w], h, c, hc => by
    rw [joinWords_single] at hc
    exact Or.inr (h w (by simp) c hc)
  | w :: x :: ws, h, c, hc => by
    rw [joinWords_cons w (x :: ws) (by simp)] at hc
    rcases List.mem_append.mp hc with h1 | h1
    · exact Or.inr (h w (by simp) c h1)
    · rcases List.mem_cons.mp h1 with h2 | h2
      · exact Or.inl h2
      · exact joinWords_chars (x :: ws) (fun u hu => h u (by simp [hu])) c h2

theorem protectInner_spaceFree (inner : Str) : SpaceFree (protectInner inner) := by
  intro c hc
  simp only [protectInner, pyNormalize, List.mem_map] at hc
  obtain ⟨d, hd, rfl⟩ := hc
  rcases joinWords_chars (pyWords inner) (fun w hw => (pyWords_words w hw).2) d hd
    with h | h
  · subst h
    rw [if_pos rfl]
    decide
  · have hd' : d ≠ ' ' := by
      intro he
      rw [he] at h
      simp [isSpace] at h
    rw [if_neg hd']
    exact h

theorem pyWords_chars_mem {s : Str} {w : Str} (hw : w ∈ pyWords s) :
    ∀ c ∈ w, c ∈ s := by
  intro c hc
  have hsub := pyWordsAux_isSub s [] w hw
  simp only [List.reverse_nil, List.nil_append] at hsub
  obtain ⟨u, v, rfl⟩ := hsub
  simp [hc]

theorem pyNormalize_chars {s : Str} :
    ∀ c ∈ pyNormalize s, c = ' ' ∨ c ∈ s := by
  intro c hc
  simp only [pyNormalize] at hc
  by_cases hsp : c = ' '
  · exact Or.inl hsp
  · right
    have : ∃ w ∈ pyWords s, c ∈ w := by
      revert hc
      generalize pyWords s = ws
      intro hc
      induction ws with
      | nil =>
        rw [joinWords_nil] at hc
        simp at hc
      | cons w rest ih =>
        cases rest with
        | nil =>
          rw [joinWords_single] at hc
          exact ⟨w, by simp, hc⟩
        | cons x xs =>
          rw [joinWords_cons w (x :: xs) (by simp)] at hc
          rcases List.mem_append.mp hc with h1 | h1
          · exact ⟨w, by simp, h1⟩
          · rcases List.mem_cons.mp h1 with h2 | h2
            · exact absurd h2 hsp
            · obtain ⟨u, hu, hcu⟩ := ih h2
              exact ⟨u, by simp [hu], hcu⟩
    obtain ⟨w, hw, hcw⟩ := this
    exact pyWords_chars_mem hw c hcw

theorem map_id_of_mem {α : Type} (f : α → α) :
    ∀ (l : List α), (∀ x ∈ l, f x = x) → l.map f = l
  | [], _ => rfl
  | x :: xs, h => by
    rw [List.map_cons, h x (by simp),
      map_id_of_mem f xs (fun y hy => h y (by simp [hy]))]

theorem restore_protectInner (inner : Str) (hwj : WORD_JOINER ∉ inner) :
    restore_bracket_spaces (protectInner inner) = pyNormalize inner := by
  simp only [restore_bracket_spaces, protectInner, List.map_map]
  apply map_id_of_mem
  intro c hc
  simp only [Function.comp_apply]
  by_cases hsp : c = ' '
  · rw [if_pos hsp, if_pos rfl, hsp]
  · rw [if_neg hsp]
    have hcwj : c ≠ WORD_JOINER := by
      intro he
      rcases pyNormalize_chars c hc with h | h
      · exact hsp h
      · rw [he] at h
        exact hwj h
    rw [if_neg hcwj]

theorem isSub_flatten_of_mem {x : Str} :
    ∀ {l : List Str}, x ∈ l → isSub x (l.flatMap id)
  | [], h => by simp at h
  | y :: ys, h => by
    rcases List.mem_cons.mp h with rfl | h
    · exact ⟨[], ys.flatMap id, by simp⟩
    · exact isSub_extend_left y (isSub_flatten_of_mem h)

theorem flatMap_pyWords_mem {l : List Str} {w : Str}
    (h : w ∈ l.flatMap pyWords) : ∃ x ∈ l, w ∈ pyWords x := by
  rw [List.mem_flatMap] at h
  exact h

theorem newline_not_mem_normalized {inner : Str} (hnorm : pyNormalize inner = inner) :
    '\n' ∉ inner := by
  intro h
  rw [← hnorm] at h
  rcases joinWords_chars (pyWords inner) (fun w hw => (pyWords_words w hw).2) '\n' h
    with h1 | h1
  · exact absurd h1 (by decide)
  · exact absurd h1 (by decide)

theorem greedyExtend_prefix_fit (μ : Str → ℚ) (maxW : ℚ) :
    ∀ (ws cur : List Str),
      (∀ k, 2 ≤ k → k ≤ cur.length → μ (joinWords (cur.take k)) ≤ maxW) →
      ∀ k, 2 ≤ k → k ≤ (greedyExtend μ maxW cur ws).1.length →
        μ (joinWords ((greedyExtend μ maxW cur ws).1.take k)) ≤ maxW
  | [], cur, h, k, h2, hk => by
    simp only [greedyExtend] at hk ⊢
    exact h k h2 hk
  | w :: ws, cur, h, k, h2, hk => by
    by_cases hfit : μ (joinWords (cur ++ [w])) ≤ maxW
    · simp only [greedyExtend, if_pos hfit] at hk ⊢
      refine greedyExtend_prefix_fit μ maxW ws (cur ++ [w]) ?_ k h2 hk
      intro j hj2 hjle
      rcases Nat.lt_or_ge j (cur.length + 1) with hlt | hge
      · rw [List.take_append_of_le_length (by omega)]
        exact h j hj2 (by omega)
      · have hj : j = cur.length + 1 := by
          simp only [List.length_append, List.length_cons, List.length_nil] at hjle
          omega
        rw [hj, show cur.length + 1 = (cur ++ [w]).length by simp, List.take_length]
        exact hfit
    · simp only [greedyExtend, if_neg hfit] at hk ⊢
      exact h k h2 hk

theorem wrapWords_line_fit (μ : Str → ℚ) (maxW : ℚ) :
    ∀ (words : List Str), ∀ L ∈ wrapWords μ maxW words,
      μ (joinWords L) ≤ maxW ∨ L.length = 1
  | [] => by
    intro L hL
    rw [wrapWords] at hL
    simp at hL
  | w :: ws => by
    intro L hL
    rw [wrapWords] at hL
    rcases List.mem_cons.mp hL with rfl | hL
    · have hpre : ∀ k, 2 ≤ k → k ≤ (greedyExtend μ maxW [w] ws).1.length →
          μ (joinWords ((greedyExtend μ maxW [w] ws).1.take k)) ≤ maxW := by
        refine greedyExtend_prefix_fit μ maxW ws [w] ?_
        intro k h2 hk
        simp only [List.length_cons, List.length_nil] at hk
        omega
      have hone : 1 ≤ (greedyExtend μ maxW [w] ws).1.length := by
        simpa using greedyExtend_fst_length μ maxW ws [w]
      unfold weakEnding
      split
      · next hcond =>
        rcases Nat.lt_or_ge (greedyExtend μ maxW [w] ws).1.length 3 with hlt | hge
        · right
          rw [List.length_dropLast]
          omega
        · left
          rw [List.dropLast_eq_take]
          exact hpre _ (by omega) (by omega)
      · rcases Nat.lt_or_ge (greedyExtend μ maxW [w] ws).1.length 2 with hlt | hge
        · right
          show (greedyExtend μ maxW [w] ws).1.length = 1
          omega
        · left
          have := hpre (greedyExtend μ maxW [w] ws).1.length hge (le_refl _)
          rwa [List.take_length] at this
    · exact wrapWords_line_fit μ maxW
        (weakEnding (greedyExtend μ maxW [w] ws).1 (greedyExtend μ maxW [w] ws).2).2 L hL
termination_by words => words.length
decreasing_by simpa using wrapStep_rest_lt μ maxW w ws'

theorem antiOrphan_fit (μ : Str → ℚ) (maxW : ℚ) (out : List Str)
    (h : ∀ l ∈ out, μ l ≤ maxW ∨ (pyWords l).length = 1) :
    ∀ l ∈ antiOrphan μ maxW out, μ l ≤ maxW ∨ (pyWords l).length = 1 := by
  unfold antiOrphan
  match hrev : out.reverse with
  | [] => exact h
  | [lastL] => exact h
  | lastL :: prevL :: restRev =>
    have hout : out = restRev.reverse ++ [prevL, lastL] := by
      have := congrArg List.reverse hrev
      simpa using this
    by_cases h1 : (pyWords lastL).length = 1 ∧ 3 ≤ (pyWords prevL).length
    · simp only [if_pos h1]
      by_cases h2 : μ ((pyWords prevL).getLastD [] ++ ' ' :: lastL) ≤ maxW ∧
          μ (joinWords (pyWords prevL).dropLast) ≤ maxW
      · simp only [if_pos h2]
        intro l hl
        rcases List.mem_append.mp hl with hm | hm
        · exact h l (by rw [hout]; exact List.mem_append.mpr (Or.inl hm))
        · rcases List.mem_cons.mp hm with rfl | hm
          · exact Or.inl h2.2
          · rcases List.mem_cons.mp hm with rfl | hm
            · exact Or.inl h2.1
            · simp at hm
      · rw [if_neg h2]
        exact h
    · simp only [if_neg h1]
      exact h

theorem wrap_one_line_fit (μ : Str → ℚ) (line : Str) (maxWidthPx : ℚ) :
    ∀ l ∈ wrap_one_lyric_line_by_width μ line maxWidthPx,
      μ l ≤ maxWidthPx * (97 / 100) ∨ (pyWords l).length = 1 := by
  unfold wrap_one_lyric_line_by_width
  by_cases h : pyStrip line = []
  · simp only [h, if_pos rfl]
    intro l hl
    simp at hl
  · simp only [if_neg h]
    apply antiOrphan_fit
    intro l hl
    rw [List.mem_map] at hl
    obtain ⟨L, hL, rfl⟩ := hl
    rcases wrapWords_line_fit μ (maxWidthPx * (97 / 100)) _ L hL with hfit | hone
    · exact Or.inl hfit
    · right
      rw [pyWords_joinWords L ?_]
      · exact hone
      · intro w hw
        have hmem : w ∈ (wrapWords μ (maxWidthPx * (97 / 100))
            (pyWords (pyStrip line))).flatten := List.mem_flatten.mpr ⟨L, hL, hw⟩
        rw [wrapWords_flatten] at hmem
        exact pyWords_words w hmem

theorem clauseScan_nil_of_nil : clauseScan [] ([] : Str) = [] := by
  decide

theorem wrap_one_blank (μ : Str → ℚ) (line : Str) (boxW : ℚ)
    (h : pyWords line = []) :
    wrap_one_lyric_line_by_width μ line boxW = [] := by
  simp [wrap_one_lyric_line_by_width, pyStrip_eq_nil_of_pyWords_nil line h]

theorem pack_blank (μ : Str → ℚ) (lyricLines : List Str) (boxW boxH lineH gapEm : ℚ)
    (h : ∀ l ∈ lyricLines, pyWords l = []) :
    pack_lyrics_into_slides_by_height μ lyricLines boxW boxH lineH gapEm = [] := by
  unfold pack_lyrics_into_slides_by_height
  have hfold : ∀ (ls : List Str), (∀ l ∈ ls, pyWords l = []) →
      ls.foldl (packStep μ boxW lineH (max 0 (lineH * gapEm)) (boxH * (98 / 100)))
          ⟨[], [], [], 0⟩
        = ⟨[], [], [], 0⟩ := by
    intro ls
    induction ls with
    | nil => intro _; rfl
    | cons l ls ih =>
      intro hh
      rw [List.foldl_cons]
      have hstep : packStep μ boxW lineH (max 0 (lineH * gapEm)) (boxH * (98 / 100))
          ⟨[], [], [], 0⟩ l = ⟨[], [], [], 0⟩ := by
        simp only [packStep]
        rw [wrap_one_blank μ l boxW (hh l (by simp))]
        simp
      rw [hstep]
      exact ih (fun u hu => hh u (by simp [hu]))
  rw [hfold lyricLines h]
  simp

theorem wtl_blank (t : Str) (maxC : Nat) (h : pyWords t = []) :
    wrapTextLines t maxC = [] := by
  simp only [wrapTextLines]
  rw [if_pos ((pyNormalize_nil_iff t).mpr h)]

theorem units_blank (t : Str) (h : pyWords t = []) :
    split_by_lines_units t = [] := by
  simp only [split_by_lines_units]
  rw [if_pos ((pyNormalize_nil_iff t).mpr h)]

theorem isSub_restore {p s : Str} (h : isSub p s) :
    isSub (restore_bracket_spaces p) (restore_bracket_spaces s) := by
  obtain ⟨u, v, rfl⟩ := h
  exact ⟨restore_bracket_spaces u, restore_bracket_spaces v,
    by simp [restore_bracket_spaces]⟩

theorem isSub_length_le {p s : Str} (h : isSub p s) : p.length ≤ s.length := by
  obtain ⟨u, v, rfl⟩ := h
  simp
  omega

theorem restore_span_eq (inner : Str) (hwj : WORD_JOINER ∉ inner)
    (hnorm : pyNormalize inner = inner) :
    restore_bracket_spaces ('[' :: protectInner inner ++ [']'])
      = '[' :: inner ++ [']'] := by
  have h1 := restore_protectInner inner hwj
  simp only [restore_bracket_spaces, List.map_cons, List.map_append,
    List.map_nil] at h1 ⊢
  rw [if_neg ((by decide) : ¬('[' = WORD_JOINER)),
    if_neg ((by decide) : ¬(']' = WORD_JOINER)), h1, hnorm]

/-- C1 (amended): under a sane geometry — positive line height that itself
fits the `box_height_px * 0.98` budget — every page committed by the vertical
packer, hard-split fallback pages included, has used height (line height times
line count plus a gap before each lyric start after the first) at most
`box_height_px * 0.98`.  The rebalancer performs no height check, so the
invariant of the claim holds of the packer's output only; see the
counterexample for a rebalanced page that exceeds the budget. -/
theorem packer_height_budget (μ : Str → ℚ) (lyricLines : List Str)
    (boxW boxH lineH gapEm : ℚ) (hlh : 0 < lineH)
    (hb : lineH ≤ boxH * (98 / 100)) :
    ∀ pg ∈ pack_lyrics_into_slides_by_height μ lyricLines boxW boxH lineH gapEm,
      usedHeight lineH (max 0 (lineH * gapEm)) pg ≤ boxH * (98 / 100) :=
  pack_pages_height μ lyricLines boxW boxH lineH gapEm hlh hb

/-- Witness for C1 at a concrete geometry and input. -/
theorem packer_height_budget_witness :
    usedHeight 10 (max 0 (10 * 0)) ([['a']], [true]) ≤ 50 * (98 / 100) :=
  packer_height_budget mu100 [['a']] 400 50 10 0 (by norm_num) (by norm_num)
    ([['a']], [true])
    (by norm_num +decide [pack_lyrics_into_slides_by_height, packStep,
      wrap_one_lyric_line_by_width, pyStrip, pyLStrip, pyRStrip, isSpace, pyWords,
      pyWordsAux, wrapWords, greedyExtend, weakEnding, joinWords, List.intercalate,
      List.intersperse, mu100, antiOrphan, pyLower, SMALL_WORDS])

/-- Counterexample for C1: with box height 50, line height 10, no gap and a
100-pixels-per-character font, the packer emits two in-budget pages, but the
rebalancer then moves the two-line lyric group onto the second page on group
counts alone, committing a five-line page of used height 50 > 49. -/
theorem rebalance_overflow_example :
    rebalance_single_lyric_slides
        (pack_lyrics_into_slides_by_height mu100 fourLyrics 400 50 10 0) 2 2
      = [([['a'], ['b']], [true, true]),
         ([['c','c'], ['d','d'], ['e','e'], ['f','f'], ['g','g']],
          [true, false, true, false, false])]
    ∧ (∀ pg ∈ pack_lyrics_into_slides_by_height mu100 fourLyrics 400 50 10 0,
        usedHeight 10 (max 0 (10 * 0)) pg ≤ 50 * (98 / 100))
    ∧ ¬ (usedHeight 10 (max 0 (10 * 0))
        ([['c','c'], ['d','d'], ['e','e'], ['f','f'], ['g','g']],
         [true, false, true, false, false]) ≤ 50 * (98 / 100)) := by
  refine ⟨?_, ?_, ?_⟩
  · norm_num +decide [fourLyrics, pack_lyrics_into_slides_by_height, packStep,
      wrap_one_lyric_line_by_width, pyStrip, pyLStrip, pyRStrip, isSpace, pyWords,
      pyWordsAux, wrapWords, greedyExtend, weakEnding, joinWords, List.intercalate,
      List.intersperse, mu100, antiOrphan, pyLower, SMALL_WORDS,
      rebalance_single_lyric_slides, rebalanceLoop, split_into_lyric_groups,
      splitGroupsAux, join_lyric_groups, List.zip, List.zipWith]
  · norm_num +decide [fourLyrics, pack_lyrics_into_slides_by_height, packStep,
      wrap_one_lyric_line_by_width, pyStrip, pyLStrip, pyRStrip, isSpace, pyWords,
      pyWordsAux, wrapWords, greedyExtend, weakEnding, joinWords, List.intercalate,
      List.intersperse, mu100, antiOrphan, pyLower, SMALL_WORDS,
      usedHeight, List.count_cons]
  · norm_num [usedHeight, List.count_cons]

/-- C2 (amended): every display line produced by the lyric wrapper measures
within `usable_width * 0.97` or consists of a single word, and every display
line produced by the verse wrapper fits `max_line_chars` or is a single input
word kept whole.  Neither wrapper hard-splits an oversized word
character-by-character; see the counterexample. -/
theorem wrapper_width_or_single_word (μ : Str → ℚ) (line : Str)
    (maxWidthPx : ℚ) (t : Str) (maxLineChars : Nat) :
    (∀ l ∈ wrap_one_lyric_line_by_width μ line maxWidthPx,
        μ l ≤ maxWidthPx * (97 / 100) ∨ (pyWords l).length = 1) ∧
    (∀ l ∈ wrapTextLines t maxLineChars,
        l.length ≤ maxLineChars ∨ l ∈ pyWords t) :=
  ⟨wrap_one_line_fit μ line maxWidthPx, wrapTextLines_le t maxLineChars⟩

/-- Counterexample for C2: a five-character word at 100 pixels per character
against a 100-pixel box (97-pixel budget) is emitted whole as a single
over-wide display line instead of being hard-split character-by-character. -/
theorem oversized_word_kept_whole :
    wrap_one_lyric_line_by_width mu100 ['a','a','a','a','a'] 100
      = [['a','a','a','a','a']]
    ∧ ¬ (mu100 ['a','a','a','a','a'] ≤ 100 * (97 / 100)) := by
  constructor
  · norm_num +decide [wrap_one_lyric_line_by_width, pyStrip, pyLStrip, pyRStrip,
      isSpace, pyWords, pyWordsAux, wrapWords, greedyExtend, weakEnding, joinWords,
      List.intercalate, List.intersperse, mu100, antiOrphan, pyLower, SMALL_WORDS]
  · norm_num [mu100]

/-- C3 (confirmed): no content loss — the words of all pages output by the
packer-plus-rebalancer pipeline, in order, are exactly the words of the input
lyric lines, for every measuring function, input and geometry. -/
theorem pipeline_no_content_loss (μ : Str → ℚ) (lyricLines : List Str)
    (boxW boxH lineH gapEm : ℚ) :
    pagesWords (rebalance_single_lyric_slides
        (pack_lyrics_into_slides_by_height μ lyricLines boxW boxH lineH gapEm) 2 2)
      = lyricLines.flatMap pyWords :=
  pipeline_words_helper μ lyricLines boxW boxH lineH gapEm

/-- C4 (confirmed): the rebalancer is idempotent on well-formed page
sequences — every page of the packer's output is well-formed, and running the
lonely-page repair twice equals running it once. -/
theorem rebalancer_idempotent (packed : List Page)
    (h : ∀ p ∈ packed, PageWF p) :
    rebalance_single_lyric_slides
        (rebalance_single_lyric_slides packed 2 2) 2 2
      = rebalance_single_lyric_slides packed 2 2 :=
  rebalance_idem_helper packed h

/-- Witness for C4 on a concrete two-page sequence. -/
theorem rebalancer_idempotent_witness :
    rebalance_single_lyric_slides (rebalance_single_lyric_slides
        [([['a']], [true]), ([['b']], [true])] 2 2) 2 2
      = rebalance_single_lyric_slides [([['a']], [true]), ([['b']], [true])] 2 2 :=
  rebalancer_idempotent [([['a']], [true]), ([['b']], [true])]
    (by
      intro p hp
      rcases List.mem_cons.mp hp with rfl | hp
      · exact ⟨by simp, by simp, rfl⟩
      · rcases List.mem_cons.mp hp with rfl | hp
        · exact ⟨by simp, by simp, rfl⟩
        · simp at hp)

/-- C5 (amended): the orphan-avoidance pass migrates the trailing word of the
penultimate display line exactly when the final line is a single word — of any
length, the source checks no 4-character bound — the penultimate line has at
least three words, and both resulting lines still fit the width budget; in
every other case the lines are unchanged.  See the counterexample for a
migration onto a ten-character final word. -/
theorem orphan_migration_exact (μ : Str → ℚ) (maxW : ℚ) (front : List Str)
    (prevL lastL : Str) :
    antiOrphan μ maxW (front ++ [prevL, lastL])
      = if (pyWords lastL).length = 1 ∧ 3 ≤ (pyWords prevL).length
            ∧ μ ((pyWords prevL).getLastD [] ++ ' ' :: lastL) ≤ maxW
            ∧ μ (joinWords (pyWords prevL).dropLast) ≤ maxW
        then front ++ [joinWords (pyWords prevL).dropLast,
              (pyWords prevL).getLastD [] ++ ' ' :: lastL]
        else front ++ [prevL, lastL] := by
  unfold antiOrphan
  match hrev : (front ++ [prevL, lastL]).reverse with
  | [] =>
    exfalso
    have := congrArg List.length hrev
    simp at this
  | [x] =>
    exfalso
    have := congrArg List.length hrev
    simp at this
  | lastL' :: prevL' :: restRev =>
    have hsimp : lastL :: prevL :: front.reverse = lastL' :: prevL' :: restRev := by
      rw [← hrev]
      simp
    injection hsimp with ha hb
    injection hb with hb hc
    subst ha
    subst hb
    subst hc
    show (if (pyWords lastL).length = 1 ∧ 3 ≤ (pyWords prevL).length then
        if μ ((pyWords prevL).getLastD [] ++ ' ' :: lastL) ≤ maxW ∧
            μ (joinWords (pyWords prevL).dropLast) ≤ maxW then
          front.reverse.reverse ++ [joinWords (pyWords prevL).dropLast,
            (pyWords prevL).getLastD [] ++ ' ' :: lastL]
        else front ++ [prevL, lastL]
      else front ++ [prevL, lastL]) = _
    by_cases hc1 : (pyWords lastL).length = 1 ∧ 3 ≤ (pyWords prevL).length
    · by_cases hc2 : μ ((pyWords prevL).getLastD [] ++ ' ' :: lastL) ≤ maxW ∧
          μ (joinWords (pyWords prevL).dropLast) ≤ maxW
      · rw [if_pos hc1, if_pos hc2, if_pos ⟨hc1.1, hc1.2, hc2.1, hc2.2⟩]
        simp
      · rw [if_pos hc1, if_neg hc2,
          if_neg (fun hh => hc2 ⟨hh.2.2.1, hh.2.2.2⟩)]
    · rw [if_neg hc1, if_neg (fun hh => hc1 ⟨hh.1, hh.2.1⟩)]

/-- Counterexample for C5: the pass migrates "cc" onto the ten-character final
word "dddddddddd", which the claim's 4-character bound would forbid. -/
theorem orphan_migration_long_word :
    wrap_one_lyric_line_by_width mu100 "aa bb cc dddddddddd".toList 1500
      = ["aa bb".toList, "cc dddddddddd".toList]
    ∧ 4 < ("dddddddddd".toList : Str).length := by
  constructor
  · norm_num +decide [wrap_one_lyric_line_by_width, pyStrip, pyLStrip, pyRStrip,
      isSpace, pyWords, pyWordsAux, wrapWords, greedyExtend, weakEnding, joinWords,
      List.intercalate, List.intersperse, mu100, antiOrphan, pyLower, SMALL_WORDS]
  · decide

/-- C6 (amended): a bracket-delimited protected span whose inner text is
already whitespace-normalised, bracket-free and word-joiner-free survives
wrapping inside one display line, and the space-restored concatenation of the
display lines contains the span's exact original text as a contiguous
substring.  For a span with irregular internal whitespace the restored text is
the normalised span, not the original; see the counterexample. -/
theorem protected_span_integrity (text pre inner post : Str) (maxLineChars : Nat)
    (htext : text = pre ++ '[' :: inner ++ ']' :: post)
    (hpre : '[' ∉ pre) (hne : inner ≠ []) (hbr : ']' ∉ inner)
    (hwj : WORD_JOINER ∉ inner) (hnorm : pyNormalize inner = inner) :
    (∃ l ∈ wrapTextLines (protect_bracket_spans text) maxLineChars,
        isSub ('[' :: protectInner inner ++ [']']) l) ∧
    isSub ('[' :: inner ++ [']'])
      (restore_bracket_spaces
        ((wrapTextLines (protect_bracket_spans text) maxLineChars).flatMap id)) := by
  have hnl : '\n' ∉ inner := newline_not_mem_normalized hnorm
  have hprot : protect_bracket_spans text
      = pre ++ '[' :: (protectInner inner ++ ']' :: protectScan post) := by
    rw [htext]
    exact protectScan_span pre inner post hpre hne hbr hnl
  have hspSub : isSub ('[' :: protectInner inner ++ [']'])
      (protect_bracket_spans text) := by
    refine ⟨pre, protectScan post, ?_⟩
    rw [hprot]
    simp
  have hsf : SpaceFree ('[' :: protectInner inner ++ [']']) := by
    intro c hc
    rcases List.mem_cons.mp hc with rfl | hc
    · decide
    · rcases List.mem_append.mp hc with hc | hc
      · exact protectInner_spaceFree inner c hc
      · simp at hc
        subst hc
        decide
  have hone : ('[' :: protectInner inner ++ [']'] : Str) ≠ [] := by simp
  obtain ⟨w, hw, hsubw⟩ := isSub_word_of_isSub (protect_bracket_spans text) []
    ('[' :: protectInner inner ++ [']']) hone hsf (by simpa using hspSub)
  have hw' : w ∈ (wrapTextLines (protect_bracket_spans text)
      maxLineChars).flatMap pyWords := by
    rw [wrapTextLines_words]
    exact hw
  obtain ⟨l, hl, hwl⟩ := flatMap_pyWords_mem hw'
  have hlsub : isSub w l := by
    have := pyWordsAux_isSub l [] w hwl
    simpa using this
  constructor
  · exact ⟨l, hl, isSub_trans hsubw hlsub⟩
  · have hflat : isSub ('[' :: protectInner inner ++ [']'])
        ((wrapTextLines (protect_bracket_spans text) maxLineChars).flatMap id) :=
      isSub_trans (isSub_trans hsubw hlsub) (isSub_flatten_of_mem hl)
    have hres := isSub_restore hflat
    rwa [restore_span_eq inner hwj hnorm] at hres

/-- Witness for C6 on the text "go [a b] now" with a 5-character budget. -/
theorem protected_span_integrity_witness :
    (∃ l ∈ wrapTextLines (protect_bracket_spans "go [a b] now".toList) 5,
        isSub ('[' :: protectInner "a b".toList ++ [']']) l) ∧
    isSub ('[' :: "a b".toList ++ [']'])
      (restore_bracket_spaces
        ((wrapTextLines (protect_bracket_spans "go [a b] now".toList) 5).flatMap
          id)) :=
  protected_span_integrity "go [a b] now".toList "go ".toList "a b".toList
    " now".toList 5 (by decide) (by decide) (by decide) (by decide) (by decide)
    (by decide)

/-- Counterexample for C6: the span "[a  b]" has its double space collapsed
by protect_bracket_spans, so the restored output contains "[a b]" and cannot
contain the span's exact original text. -/
theorem protected_span_not_verbatim :
    restore_bracket_spaces
        ((wrapTextLines (protect_bracket_spans "[a  b]".toList) 20).flatMap id)
      = "[a b]".toList
    ∧ ¬ isSub "[a  b]".toList
        (restore_bracket_spaces
          ((wrapTextLines (protect_bracket_spans "[a  b]".toList) 20).flatMap
            id)) := by
  have heq : restore_bracket_spaces
      ((wrapTextLines (protect_bracket_spans "[a  b]".toList) 20).flatMap id)
      = "[a b]".toList := by
    norm_num +decide [protect_bracket_spans, protectScan, findCloseAux,
      protectInner, restore_bracket_spaces, wrapTextLines, wtlStep, splitOnChar,
      splitOnCharAux, pyNormalize, pyWords, pyWordsAux, joinWords,
      List.intercalate, List.intersperse, isSpace, WORD_JOINER, pyStrip,
      pyLStrip, pyRStrip]
  refine ⟨heq, ?_⟩
  intro h
  rw [heq] at h
  have := isSub_length_le h
  simp at this

/-- C7 (confirmed): when the clause scanner yields at least two units and the
stripped final unit is tiny — at most two words, or at most eight characters
once non-alphanumerics are removed — split_by_lines merges it into the
previous unit; in particular the John 3:16 text never yields a lone "Amen."
unit. -/
theorem tiny_tail_merged_back (text : Str)
    (h2 : 2 ≤ (clauseScan [] (pyNormalize text)).length)
    (htiny : tinyTailCond
      (pyStrip ((clauseScan [] (pyNormalize text)).getLastD [])) = true) :
    split_by_lines_units text
      = (clauseScan [] (pyNormalize text)).dropLast.dropLast ++
          [pyStrip (pyRStrip ((clauseScan [] (pyNormalize text)).dropLast.getLastD [])
            ++ ' ' :: pyStrip ((clauseScan [] (pyNormalize text)).getLastD []))]
    ∧ "Amen.".toList ∉ split_by_lines_units john316
    ∧ split_by_lines_units john316
        = ["For God so loved the world,".toList,
           "that he gave his only begotten Son: Amen.".toList] := by
  refine ⟨?_, by decide, by decide⟩
  have hne : clauseScan [] (pyNormalize text) ≠ [] := by
    intro h
    rw [h] at h2
    simp at h2
  have ht : pyNormalize text ≠ [] := by
    intro h
    rw [h, clauseScan_nil_of_nil] at h2
    simp at h2
  simp only [split_by_lines_units]
  rw [if_neg ht, if_neg hne]
  simp only [mergeTinyTail]
  rw [if_pos h2, if_pos htiny]

/-- Witness for C7 on the John 3:16 scenario text. -/
theorem tiny_tail_merged_back_witness :
    "Amen.".toList ∉ split_by_lines_units john316 :=
  (tiny_tail_merged_back john316 (by decide) (by decide)).2.1

/-- C8 (confirmed): an empty or whitespace-only input yields an empty result
everywhere — the lyric wrapper emits no display line, the packer and the
rebalancer emit no page, the verse wrapper emits no line and the clause
splitter emits no unit — with no error signalled. -/
theorem blank_input_yields_nothing (μ : Str → ℚ) (line t : Str)
    (lyricLines : List Str) (boxW boxH lineH gapEm : ℚ) (maxLineChars : Nat)
    (hline : ∀ c ∈ line, isSpace c = true)
    (hll : ∀ l ∈ lyricLines, ∀ c ∈ l, isSpace c = true)
    (ht : ∀ c ∈ t, isSpace c = true) :
    wrap_one_lyric_line_by_width μ line boxW = []
    ∧ pack_lyrics_into_slides_by_height μ lyricLines boxW boxH lineH gapEm = []
    ∧ rebalance_single_lyric_slides
        (pack_lyrics_into_slides_by_height μ lyricLines boxW boxH lineH gapEm)
        2 2 = []
    ∧ wrapTextLines t maxLineChars = []
    ∧ split_by_lines_units t = [] := by
  have hw : pyWords line = [] := pyWordsAux_all_space line hline
  have hwl : ∀ l ∈ lyricLines, pyWords l = [] :=
    fun l hl => pyWordsAux_all_space l (hll l hl)
  have hwt : pyWords t = [] := pyWordsAux_all_space t ht
  have hpack := pack_blank μ lyricLines boxW boxH lineH gapEm hwl
  refine ⟨wrap_one_blank μ line boxW hw, hpack, ?_,
    wtl_blank t maxLineChars hwt, units_blank t hwt⟩
  rw [hpack]
  rfl

/-- Witness for C8 on whitespace-only inputs. -/
theorem blank_input_yields_nothing_witness :
    wrap_one_lyric_line_by_width mu100 [' '] 400 = []
    ∧ pack_lyrics_into_slides_by_height mu100 [[' '], []] 400 50 10 0 = []
    ∧ rebalance_single_lyric_slides
        (pack_lyrics_into_slides_by_height mu100 [[' '], []] 400 50 10 0)
        2 2 = []
    ∧ wrapTextLines ['\t'] 40 = []
    ∧ split_by_lines_units ['\t'] = [] :=
  blank_input_yields_nothing mu100 [' '] ['\t'] [[' '], []] 400 50 10 0 40
    (by decide) (by decide) (by decide)

/-- C9 (confirmed): every outer-loop iteration of the lyric wrapper strictly
shrinks the word stream — the words left after taking one display line,
weak-ending pushback included, are strictly fewer than before, because the
pushback fires only when the finished line keeps at least two words. -/
theorem wrapper_outer_loop_progress (μ : Str → ℚ) (maxW : ℚ) (w : Str)
    (ws : List Str) :
    (weakEnding (greedyExtend μ maxW [w] ws).1
        (greedyExtend μ maxW [w] ws).2).2.length
      < (w :: ws).length := by
  simpa using wrapStep_rest_lt μ maxW w ws

/-- C10 (confirmed): every page emitted by the vertical packer is non-empty,
carries a flag list of exactly the length of its line list, and starts with a
True flag; the rebalancer preserves all three properties. -/
theorem pages_wellformed_preserved (μ : Str → ℚ) (lyricLines : List Str)
    (boxW boxH lineH gapEm : ℚ) :
    (∀ pg ∈ pack_lyrics_into_slides_by_height μ lyricLines boxW boxH lineH gapEm,
        pg.1 ≠ [] ∧ pg.1.length = pg.2.length ∧ pg.2.head? = some true) ∧
    (∀ pg ∈ rebalance_single_lyric_slides
        (pack_lyrics_into_slides_by_height μ lyricLines boxW boxH lineH gapEm) 2 2,
        pg.1 ≠ [] ∧ pg.1.length = pg.2.length ∧ pg.2.head? = some true) := by
  constructor
  · intro pg hpg
    exact pack_pages_wf μ lyricLines boxW boxH lineH gapEm pg hpg
  · intro pg hpg
    exact (rebalance_master _ 2 2 (by omega)
      (pack_pages_wf μ lyricLines boxW boxH lineH gapEm)).1 pg hpg
